import Mathlib

/-!
# go-interpreter: token model, AST rendering, lexer and Pratt parser

A shallow embedding of `token/token.go` and `ast/ast.go`, together with the
lexer and the parser that the test suites of the repository drive.

Conventions of the embedding

* Go `string` is `String`; `token.TokenType` is a string type and stays one.
* A Go interface value (`ast.Expression`, `ast.Statement`) is `nil`, or holds
  one of the concrete node structs, or holds a pointer to one of them: every
  method of `ast.go` has a value receiver, so the pointer types implement the
  interfaces too.  Each interface is an inductive type with a `nil`
  constructor, one constructor per struct, and a `nilPointer` constructor for
  a non-nil interface that holds a nil pointer.  An interface holding a
  non-nil pointer to a struct answers every method as the struct itself does
  (the call copies the pointed-to value), so it is represented by the
  constructor of the struct.
* A method call through a `nil` interface panics, and so does a call of a
  value-receiver method through a nil pointer.  `String()` and
  `TokenLiteral()` therefore return `Option String`, `none` standing for the
  nil-dereference panic.
* `fmt.Sprintf` with only `%s` verbs is string concatenation.
-/

namespace GoInterpreter

/-! ## package token -/

abbrev TokenType := String

/-- The struct `token.Token`; its field `Type` is spelled `Typ`. -/
structure Token where
  Typ : TokenType
  Literal : String
  deriving DecidableEq, Repr, Inhabited

abbrev ILLEGAL : TokenType := "ILLEGAL"
abbrev EOF : TokenType := "EOF"
abbrev IDENT : TokenType := "IDENT"
abbrev INT : TokenType := "INT"
abbrev ASSIGN : TokenType := "="
abbrev PLUS : TokenType := "+"
abbrev MINUS : TokenType := "-"
abbrev BANG : TokenType := "!"
abbrev ASTERISK : TokenType := "*"
abbrev SLASH : TokenType := "/"
abbrev LESS_THAN : TokenType := "<"
abbrev GREATER_THAN : TokenType := ">"
abbrev COMMA : TokenType := ","
abbrev SEMICOLON : TokenType := ";"
abbrev LPAREN : TokenType := "("
abbrev RPAREN : TokenType := ")"
abbrev LBRACE : TokenType := "\x7b"
abbrev RBRACE : TokenType := "\x7d"
abbrev EQ : TokenType := "=="
abbrev NOT_EQ : TokenType := "!="
abbrev FUNCTION : TokenType := "FUNCTION"
abbrev LET : TokenType := "LET"
abbrev IF : TokenType := "IF"
abbrev ELSE : TokenType := "ELSE"
abbrev TRUE : TokenType := "TRUE"
abbrev FALSE : TokenType := "FALSE"
abbrev RETURN : TokenType := "RETURN"

/-- The `keywords` map of `token.go`, as an association list in source order
(the keys are pairwise distinct, so the order does not matter). -/
def keywords : List (String × TokenType) :=
  [("fn", FUNCTION), ("let", LET), ("if", IF), ("else", ELSE),
   ("true", TRUE), ("false", FALSE), ("return", RETURN)]

/-- `LookupIdent`: the keyword kind when `ident` is a key of `keywords`,
`IDENT` otherwise. -/
def LookupIdent (ident : String) : TokenType :=
  match keywords.lookup ident with
  | some tok => tok
  | none => IDENT

/-! ## package ast -/

structure Identifier where
  Token : Token
  Value : String
  deriving DecidableEq, Repr, Inhabited

/-- The structs of `ast.go` with an `expressionNode` method. -/
inductive ExpressionStruct where
  | Identifier
  | IntegerLiteral
  | PrefixExpression
  | InfixExpression
  | BooleanLiteral
  deriving DecidableEq, Repr, Inhabited

/-- The structs of `ast.go` with a `statementNode` method. -/
inductive StatementStruct where
  | LetStatement
  | ReturnStatement
  | ExpressionStatement
  deriving DecidableEq, Repr, Inhabited

/-- Values of the interface `ast.Expression`: the nil interface, a nil pointer
to one of the expression structs (a non-nil interface value), or a node. -/
inductive Expression where
  | nil
  | nilPointer (target : ExpressionStruct)
  | Identifier (i : Identifier)
  | IntegerLiteral (Token : Token) (Value : Int)
  | PrefixExpression (Token : Token) (Operator : String) (Right : Expression)
  | InfixExpression (Token : Token) (Left : Expression) (Operator : String)
      (Right : Expression)
  | BooleanLiteral (Token : Token) (Value : Bool)
  deriving DecidableEq, Repr, Inhabited

/-- Values of the interface `ast.Statement`: the nil interface, a nil pointer
to one of the statement structs (a non-nil interface value), or a node. -/
inductive Statement where
  | nil
  | nilPointer (target : StatementStruct)
  | LetStatement (Token : Token) (Name : Identifier) (Value : Expression)
  | ReturnStatement (Token : Token) (Value : Expression)
  | ExpressionStatement (Token : Token) (Expression : Expression)
  deriving DecidableEq, Repr, Inhabited

structure Program where
  Statements : List Statement
  deriving DecidableEq, Repr, Inhabited

def Identifier.TokenLiteral (i : Identifier) : String := i.Token.Literal

def Identifier.String (i : Identifier) : String := i.Value

/-- `TokenLiteral()` through an `ast.Expression`; `none` on the nil interface
and on a nil pointer. -/
def Expression.TokenLiteral : Expression → Option String
  | .nil => none
  | .nilPointer _ => none
  | .Identifier i => some i.TokenLiteral
  | .IntegerLiteral tok _ => some tok.Literal
  | .PrefixExpression tok _ _ => some tok.Literal
  | .InfixExpression tok _ _ _ => some tok.Literal
  | .BooleanLiteral tok _ => some tok.Literal

/-- `String()` through an `ast.Expression`; `none` when a method is called
through a nil interface or a nil pointer somewhere in the tree. -/
def Expression.String : Expression → Option String
  | .nil => none
  | .nilPointer _ => none
  | .Identifier i => some i.String
  | .IntegerLiteral tok _ => some tok.Literal
  | .PrefixExpression _ op right =>
    match Expression.String right with
    | none => none
    | some r => some ("(" ++ op ++ r ++ ")")
  | .InfixExpression _ left op right =>
    match Expression.String left with
    | none => none
    | some l =>
      match Expression.String right with
      | none => none
      | some r => some ("(" ++ l ++ " " ++ op ++ " " ++ r ++ ")")
  | .BooleanLiteral tok _ => some tok.Literal

/-- `TokenLiteral()` through an `ast.Statement`. -/
def Statement.TokenLiteral : Statement → Option String
  | .nil => none
  | .nilPointer _ => none
  | .LetStatement tok _ _ => some tok.Literal
  | .ReturnStatement tok _ => some tok.Literal
  | .ExpressionStatement tok _ => some tok.Literal

/-- `String()` through an `ast.Statement`. -/
def Statement.String : Statement → Option String
  | .nil => none
  | .nilPointer _ => none
  | .LetStatement tok name value =>
    if value ≠ Expression.nil then
      match value.String with
      | none => none
      | some v => some (tok.Literal ++ " " ++ name.String ++ " = " ++ v ++ ";")
    else
      some (tok.Literal ++ " " ++ name.String ++ " = ;")
  | .ReturnStatement tok value =>
    if value ≠ Expression.nil then
      match value.String with
      | none => none
      | some v => some (tok.Literal ++ " " ++ v ++ ";")
    else
      some (tok.Literal ++ " ;")
  | .ExpressionStatement _ e =>
    if e ≠ Expression.nil then e.String else some ""

/-- The loop of `Program.String`: append each statement's text to the buffer
`out`, in order. -/
def writeStatements : List Statement → String → Option String
  | [], out => some out
  | s :: rest, out =>
    match s.String with
    | none => none
    | some t => writeStatements rest (out ++ t)

def Program.TokenLiteral (p : Program) : Option String :=
  match p.Statements with
  | s :: _ => s.TokenLiteral
  | [] => some ""

def Program.String (p : Program) : Option String :=
  writeStatements p.Statements ""

/-! ## package lexer -/

/-- Modelled from the spec: the lexer's source file is missing (only
`lexer_test.go` is present).  "Letter/underscore start": ASCII letters and the
underscore. -/
def isLetter (c : Char) : Bool :=
  ('a'.toNat ≤ c.toNat && c.toNat ≤ 'z'.toNat) ||
    ('A'.toNat ≤ c.toNat && c.toNat ≤ 'Z'.toNat) || c == '_'

/-- Modelled from the spec: missing lexer source; "Digit start", the ten
decimal digits. -/
def isDigit (c : Char) : Bool := '0'.toNat ≤ c.toNat && c.toNat ≤ '9'.toNat

/-- Modelled from the spec: missing lexer source; "Skips whitespace (space,
tab, newline, carriage return)". -/
def isWhitespace (c : Char) : Bool := c == ' ' || c == '\t' || c == '\n' || c == '\r'

/-- Modelled from the spec: missing lexer source.  The lexer is "purely a
function of (current cursor, source buffer)"; the cursor over the immutable
buffer is represented by the characters not yet consumed, whose second
element is the one-character lookahead. -/
abbrev Lexer := List Char

/-- Modelled from the spec: missing lexer source; the lexer over a source
string starts with the whole string unread. -/
def Lexer.New (input : String) : Lexer := input.data

/-- Modelled from the spec: missing lexer source; step 1 of the advance
operation. -/
def skipWhitespace : Lexer → Lexer
  | [] => []
  | c :: cs => if isWhitespace c then skipWhitespace cs else c :: cs

/-- Modelled from the spec: missing lexer source; "Single-character symbols
map directly to their token kind" (the kinds of `token.go` whose text is one
character). -/
def symbolKind (c : Char) : Option TokenType :=
  if c = '=' then some ASSIGN
  else if c = '+' then some PLUS
  else if c = '-' then some MINUS
  else if c = '!' then some BANG
  else if c = '*' then some ASTERISK
  else if c = '/' then some SLASH
  else if c = '<' then some LESS_THAN
  else if c = '>' then some GREATER_THAN
  else if c = ',' then some COMMA
  else if c = ';' then some SEMICOLON
  else if c = '(' then some LPAREN
  else if c = ')' then some RPAREN
  else if c = '\x7b' then some LBRACE
  else if c = '\x7d' then some RBRACE
  else none

/-- Modelled from the spec: missing lexer source; the advance operation of
section 4.1: skip whitespace; at end of input return the end-of-input token;
otherwise classify the current character (identifier run looked up in the
keyword table, digit run, `==` and `!=` by one character of lookahead, single
symbols, anything else illegal) and move the cursor past what was consumed. -/
def Lexer.NextToken (l : Lexer) : Token × Lexer :=
  match skipWhitespace l with
  | [] => (⟨EOF, ""⟩, [])
  | c :: cs =>
    if isLetter c then
      let lit := String.mk ((c :: cs).takeWhile isLetter)
      (⟨LookupIdent lit, lit⟩, (c :: cs).dropWhile isLetter)
    else if isDigit c then
      (⟨INT, String.mk ((c :: cs).takeWhile isDigit)⟩, (c :: cs).dropWhile isDigit)
    else if c = '=' ∧ cs.head? = some '=' then
      (⟨EQ, "=="⟩, cs.tail)
    else if c = '!' ∧ cs.head? = some '=' then
      (⟨NOT_EQ, "!="⟩, cs.tail)
    else
      match symbolKind c with
      | some kind => (⟨kind, String.singleton c⟩, cs)
      | none => (⟨ILLEGAL, String.singleton c⟩, cs)

/-! ## package parser -/

/-- Modelled from the spec: the parser's source file is missing (only
`parser_test.go` is present).  Precedence levels "LOWEST < EQUALS <
LESSGREATER < SUM < PRODUCT < PREFIX < CALL". -/
abbrev LOWEST : Nat := 1
/-- Modelled from the spec: missing parser source; precedence level. -/
abbrev EQUALS : Nat := 2
/-- Modelled from the spec: missing parser source; precedence level. -/
abbrev LESSGREATER : Nat := 3
/-- Modelled from the spec: missing parser source; precedence level. -/
abbrev SUM : Nat := 4
/-- Modelled from the spec: missing parser source; precedence level. -/
abbrev PRODUCT : Nat := 5
/-- Modelled from the spec: missing parser source; precedence level. -/
abbrev PREFIX : Nat := 6
/-- Modelled from the spec: missing parser source; precedence level. -/
abbrev CALL : Nat := 7

/-- Modelled from the spec: missing parser source; the fixed table from
infix-capable token kinds to levels. -/
def precedences : List (TokenType × Nat) :=
  [(EQ, EQUALS), (NOT_EQ, EQUALS), (LESS_THAN, LESSGREATER), (GREATER_THAN, LESSGREATER),
   (PLUS, SUM), (MINUS, SUM), (SLASH, PRODUCT), (ASTERISK, PRODUCT)]

/-- Modelled from the spec: missing parser source; "Tokens with no table
entry default to LOWEST". -/
def tokenPrecedence (t : TokenType) : Nat :=
  match precedences.lookup t with
  | some level => level
  | none => LOWEST

/-- Modelled from the spec: missing parser source; the parser state: the
lexer it pulls tokens from, "current token, one-token lookahead, an
accumulating ordered list of error messages". -/
structure Parser where
  l : Lexer
  curToken : Token
  peekToken : Token
  errors : List String
  deriving DecidableEq, Repr

/-- Modelled from the spec: missing parser source; advance by one token: the
lookahead becomes current and the lexer supplies the new lookahead. -/
def Parser.nextToken (p : Parser) : Parser :=
  { p with l := (Lexer.NextToken p.l).2, curToken := p.peekToken,
           peekToken := (Lexer.NextToken p.l).1 }

/-- Modelled from the spec: missing parser source; a parser over a lexer,
with both token slots filled by two advances and no errors. -/
def Parser.New (l : Lexer) : Parser :=
  Parser.nextToken (Parser.nextToken ⟨l, ⟨"", ""⟩, ⟨"", ""⟩, []⟩)

/-- Modelled from the spec: missing parser source; the recorded errors. -/
def Parser.Errors (p : Parser) : List String := p.errors

/-- Modelled from the spec: missing parser source; "the table-precedence of
the lookahead". -/
def Parser.peekPrecedence (p : Parser) : Nat := tokenPrecedence p.peekToken.Typ

/-- Modelled from the spec: missing parser source; the table precedence of the
current token, "the operator's own precedence" in the infix operation. -/
def Parser.curPrecedence (p : Parser) : Nat := tokenPrecedence p.curToken.Typ

/-- Modelled from the spec: missing parser source; the diagnostic "expected
next token to be X, got Y", appended to the error list. -/
def Parser.peekError (p : Parser) (t : TokenType) : Parser :=
  { p with errors := p.errors ++
      ["expected next token to be " ++ t ++ ", got " ++ p.peekToken.Typ] }

/-- Modelled from the spec: missing parser source; the diagnostic "no prefix
parse function for X", appended to the error list. -/
def Parser.noPrefixParseFnError (p : Parser) (t : TokenType) : Parser :=
  { p with errors := p.errors ++ ["no prefix parse function for " ++ t] }

/-- Modelled from the spec: missing parser source; "require" a token kind:
advance when the lookahead has it, else record the mismatch. -/
def Parser.expectPeek (p : Parser) (t : TokenType) : Bool × Parser :=
  if p.peekToken.Typ = t then (true, p.nextToken) else (false, p.peekError t)

/-- Modelled from the spec: missing parser source; the conversion of an
integer lexeme (a digit run) to the literal's value.  The spec names no
failure of this conversion and no claim settled here reads the value, so it is
the plain decimal value. -/
def decimalValue (s : String) : Int :=
  s.data.foldl (fun acc c => acc * 10 + ((c.toNat : Int) - 48)) 0

/-- Modelled from the spec: missing parser source; the result of a parsing
operation: the expression and the parser state after it.  `none` only when the
fuel that bounds the recursion is exhausted; an absent expression is
`Expression.nil`. -/
abbrev ExprResult := Option (Expression × Parser)

/-- Modelled from the spec: missing parser source; the recursive callee handed
to the prefix and infix operations: `parseExpression` at a smaller fuel. -/
abbrev ExprParser := Parser → Nat → ExprResult

/-- Modelled from the spec: missing parser source; prefix operation for an
identifier. -/
def parseIdentifier (p : Parser) : ExprResult :=
  some (.Identifier ⟨p.curToken, p.curToken.Literal⟩, p)

/-- Modelled from the spec: missing parser source; prefix operation for an
integer literal. -/
def parseIntegerLiteral (p : Parser) : ExprResult :=
  some (.IntegerLiteral p.curToken (decimalValue p.curToken.Literal), p)

/-- Modelled from the spec: missing parser source; prefix operation for a
boolean literal. -/
def parseBoolean (p : Parser) : ExprResult :=
  some (.BooleanLiteral p.curToken (decide (p.curToken.Typ = TRUE)), p)

/-- Modelled from the spec: missing parser source; prefix operation for `!`
and `-`: the operand is parsed at level PREFIX. -/
def parsePrefixExpression (recur : ExprParser) (p : Parser) : ExprResult :=
  match recur p.nextToken PREFIX with
  | none => none
  | some (right, p1) =>
    some (.PrefixExpression p.curToken p.curToken.Literal right, p1)

/-- Modelled from the spec: missing parser source; the infix operation:
"takes the already-parsed left expression and the current operator token, then
recursively parses the right-hand operand at the operator's own precedence,
producing an InfixExpression". -/
def parseInfixExpression (recur : ExprParser) (left : Expression) (p : Parser) :
    ExprResult :=
  match recur p.nextToken p.curPrecedence with
  | none => none
  | some (right, p1) =>
    some (.InfixExpression p.curToken left p.curToken.Literal right, p1)

/-- Modelled from the spec: missing parser source; grouping: "parses an inner
expression at LOWEST precedence and then requires a matching `)`".  On a
mismatch the error is recorded and the expression is absent. -/
def parseGroupedExpression (recur : ExprParser) (p : Parser) : ExprResult :=
  match recur p.nextToken LOWEST with
  | none => none
  | some (exp, p1) =>
    match p1.expectPeek RPAREN with
    | (true, p2) => some (exp, p2)
    | (false, p2) => some (.nil, p2)

/-- Modelled from the spec: missing parser source; the prefix registry:
"identifier, integer literal, boolean literal, `!`, `-`, `(` for grouping". -/
def prefixParseFns (t : TokenType) : Option (ExprParser → Parser → ExprResult) :=
  if t = IDENT then some (fun _ p => parseIdentifier p)
  else if t = INT then some (fun _ p => parseIntegerLiteral p)
  else if t = TRUE ∨ t = FALSE then some (fun _ p => parseBoolean p)
  else if t = BANG ∨ t = MINUS then some parsePrefixExpression
  else if t = LPAREN then some parseGroupedExpression
  else none

/-- Modelled from the spec: missing parser source; the infix registry: the
eight operator kinds of the precedence table. -/
def infixParseFns (t : TokenType) :
    Option (ExprParser → Expression → Parser → ExprResult) :=
  if t = PLUS ∨ t = MINUS ∨ t = SLASH ∨ t = ASTERISK ∨ t = EQ ∨ t = NOT_EQ ∨
      t = LESS_THAN ∨ t = GREATER_THAN then some parseInfixExpression
  else none

/-- Modelled from the spec: missing parser source; step 3 of
`parseExpression`: "While the lookahead token is not a statement terminator
and the table-precedence of the lookahead is strictly greater than
minPrecedence: advance, look up the infix operation for the (now current)
operator token, and invoke it with the current left expression, replacing left
with its result.  If no infix operation is registered, stop the loop".  The
first argument bounds the number of iterations. -/
def infixLoop (recur : ExprParser) (precedence : Nat) :
    Nat → Expression → Parser → ExprResult
  | 0, _, _ => none
  | n + 1, left, p =>
    if p.peekToken.Typ ≠ SEMICOLON ∧ precedence < p.peekPrecedence then
      match infixParseFns p.nextToken.curToken.Typ with
      | none => some (left, p.nextToken)
      | some infixFn =>
        match infixFn recur left p.nextToken with
        | none => none
        | some (left1, p1) => infixLoop recur precedence n left1 p1
    else some (left, p)

/-- Modelled from the spec: missing parser source; the core algorithm
`parseExpression(minPrecedence)`: look up the prefix operation of the current
token, record "no prefix parse function" and return an absent expression when
there is none, else run it and then the infix loop.  The first argument is
fuel for the recursion depth. -/
def parseExpression : Nat → Parser → Nat → ExprResult
  | 0, _, _ => none
  | fuel + 1, p, precedence =>
    match prefixParseFns p.curToken.Typ with
    | none => some (.nil, p.noPrefixParseFnError p.curToken.Typ)
    | some prefixFn =>
      match prefixFn (parseExpression fuel) p with
      | none => none
      | some (left, p1) => infixLoop (parseExpression fuel) precedence fuel left p1

/-- Modelled from the spec: missing parser source; "optionally consume a
trailing `;`". -/
def Parser.skipSemicolon (p : Parser) : Parser :=
  if p.peekToken.Typ = SEMICOLON then p.nextToken else p

/-- Modelled from the spec: missing parser source; "`let` → parse identifier,
require `=`, parse expression at LOWEST, optionally consume a trailing `;`".
A failed requirement records its error and yields an absent statement. -/
def parseLetStatement (fuel : Nat) (p : Parser) : Option (Statement × Parser) :=
  match p.expectPeek IDENT with
  | (false, p1) => some (.nil, p1)
  | (true, p1) =>
    match p1.expectPeek ASSIGN with
    | (false, p2) => some (.nil, p2)
    | (true, p2) =>
      match parseExpression fuel p2.nextToken LOWEST with
      | none => none
      | some (value, p3) =>
        some (.LetStatement p.curToken ⟨p1.curToken, p1.curToken.Literal⟩ value,
              p3.skipSemicolon)

/-- Modelled from the spec: missing parser source; "`return` → parse
expression at LOWEST, optionally consume trailing `;`". -/
def parseReturnStatement (fuel : Nat) (p : Parser) : Option (Statement × Parser) :=
  match parseExpression fuel p.nextToken LOWEST with
  | none => none
  | some (value, p1) => some (.ReturnStatement p.curToken value, p1.skipSemicolon)

/-- Modelled from the spec: missing parser source; "anything else →
ExpressionStatement wrapping parseExpression(LOWEST), optionally consuming a
trailing `;`". -/
def parseExpressionStatement (fuel : Nat) (p : Parser) : Option (Statement × Parser) :=
  match parseExpression fuel p LOWEST with
  | none => none
  | some (e, p1) => some (.ExpressionStatement p.curToken e, p1.skipSemicolon)

/-- Modelled from the spec: missing parser source; `parseStatement`
"dispatches on the current token kind". -/
def parseStatement (fuel : Nat) (p : Parser) : Option (Statement × Parser) :=
  if p.curToken.Typ = LET then parseLetStatement fuel p
  else if p.curToken.Typ = RETURN then parseReturnStatement fuel p
  else parseExpressionStatement fuel p

/-- Modelled from the spec: missing parser source; the loop of
`parseProgram`: "repeatedly calls parseStatement until the end-of-input token
is reached, appending each non-absent statement to the program's sequence".
The first argument bounds the number of iterations, the second is the fuel of
each statement. -/
def parseProgramLoop : Nat → Nat → Parser → List Statement →
    Option (List Statement × Parser)
  | 0, _, _, _ => none
  | n + 1, fuel, p, acc =>
    if p.curToken.Typ = EOF then some (acc, p)
    else
      match parseStatement fuel p with
      | none => none
      | some (stmt, p1) =>
        parseProgramLoop n fuel p1.nextToken
          (if stmt ≠ Statement.nil then acc ++ [stmt] else acc)

/-- Modelled from the spec: missing parser source; `ParseProgram`, returning
the program and the parser state after the pass (whose `Errors` the caller
inspects).  Every nested call and every iteration follows the consumption of
a token, so both bounds are the number of unread characters plus the two
token slots, plus one. -/
def Parser.ParseProgram (p : Parser) : Option (Program × Parser) :=
  match parseProgramLoop (p.l.length + 3) (p.l.length + 3) p [] with
  | none => none
  | some (stmts, p1) => some (⟨stmts⟩, p1)

/-- What the tests do with a source text: `p := New(lexer.New(input))`,
`program := p.ParseProgram()`, then read `p.Errors()`. -/
def parseSource (input : String) : Option (Program × List String) :=
  match (Parser.New (Lexer.New input)).ParseProgram with
  | none => none
  | some (program, p) => some (program, p.Errors)

/-! ## Vocabulary of the statements -/

/-- An identifier name: a non-empty run of letters and underscores that is not
a reserved word. -/
def isIdentName (s : String) : Bool :=
  !s.data.isEmpty && s.data.all isLetter && decide (LookupIdent s = IDENT)

/-- An integer lexeme: a non-empty run of digits. -/
def isIntLexeme (s : String) : Bool :=
  !s.data.isEmpty && s.data.all isDigit

/-- The prefix operators `!` and `-`. -/
def isPrefixOperator (op : String) : Bool :=
  decide (op = "!" ∨ op = "-")

/-- The eight infix operators. -/
def isInfixOperator (op : String) : Bool :=
  decide (op = "+" ∨ op = "-" ∨ op = "*" ∨ op = "/" ∨ op = "<" ∨ op = ">" ∨
    op = "==" ∨ op = "!=")

/-- The supported subset of expression trees: identifiers with an identifier
name as value, integer literals whose lexeme is a digit run, boolean literals
whose lexeme is `true` or `false`, prefix `!` and `-`, the eight infix
operators, every operand present. -/
def Supported : Expression → Bool
  | .nil => false
  | .nilPointer _ => false
  | .Identifier i => isIdentName i.Value
  | .IntegerLiteral tok _ => isIntLexeme tok.Literal
  | .BooleanLiteral tok _ => decide (tok.Literal = "true" ∨ tok.Literal = "false")
  | .PrefixExpression _ op right => isPrefixOperator op && Supported right
  | .InfixExpression _ left op right =>
    isInfixOperator op && Supported left && Supported right

/-- Two trees have the same shape: the same node variant at every position,
with the same operator at operator nodes and the same rendered text at
leaves. -/
def sameShape : Expression → Expression → Prop
  | .nil, .nil => True
  | .Identifier i, .Identifier j => i.Value = j.Value
  | .IntegerLiteral tok _, .IntegerLiteral tok1 _ => tok.Literal = tok1.Literal
  | .BooleanLiteral tok _, .BooleanLiteral tok1 _ => tok.Literal = tok1.Literal
  | .PrefixExpression _ op right, .PrefixExpression _ op1 right1 =>
    op = op1 ∧ sameShape right right1
  | .InfixExpression _ left op right, .InfixExpression _ left1 op1 right1 =>
    sameShape left left1 ∧ op = op1 ∧ sameShape right right1
  | _, _ => False

/-- The characters of the rendering of a tree whose operands are all
present. -/
def chars : Expression → List Char
  | .nil => []
  | .nilPointer _ => []
  | .Identifier i => i.Value.data
  | .IntegerLiteral tok _ => tok.Literal.data
  | .BooleanLiteral tok _ => tok.Literal.data
  | .PrefixExpression _ op right => '(' :: (op.data ++ (chars right ++ [')']))
  | .InfixExpression _ left op right =>
    '(' :: (chars left ++ (' ' :: (op.data ++ (' ' :: (chars right ++ [')'])))))

/-- What may follow a complete rendering inside a larger one: nothing, a
space or a closing parenthesis. -/
def Delim (rest : List Char) : Prop :=
  ∀ c ∈ rest.head?, c = ' ' ∨ c = ')'

/-! ## Token streams -/

/-- The end-of-input token. -/
def eofToken : Token := ⟨EOF, ""⟩

/-- The lexer state `l` yields exactly the tokens `ts`, none of them the
end-of-input token, and is then at end of input. -/
def Gen : Lexer → List Token → Prop
  | l, [] => skipWhitespace l = []
  | l, t :: ts => (Lexer.NextToken l).1 = t ∧ t.Typ ≠ EOF ∧ Gen (Lexer.NextToken l).2 ts

/-- The parser state `p` stands at the head of the token stream `ts` (padded
with end-of-input tokens): its current token is the first, its lookahead the
second, and its lexer yields the rest. -/
structure Reads (p : Parser) (ts : List Token) : Prop where
  cur : p.curToken = ts.headD eofToken
  peek : p.peekToken = ts.tail.headD eofToken
  rest : Gen p.l ts.tail.tail

/-- The tokens of the rendering of a supported tree. -/
def toks : Expression → List Token
  | .nil => []
  | .nilPointer _ => []
  | .Identifier i => [⟨IDENT, i.Value⟩]
  | .IntegerLiteral tok _ => [⟨INT, tok.Literal⟩]
  | .BooleanLiteral tok _ => [⟨LookupIdent tok.Literal, tok.Literal⟩]
  | .PrefixExpression _ op right =>
    ⟨LPAREN, "("⟩ :: ⟨op, op⟩ :: (toks right ++ [⟨RPAREN, ")"⟩])
  | .InfixExpression _ left op right =>
    ⟨LPAREN, "("⟩ :: (toks left ++ ⟨op, op⟩ :: (toks right ++ [⟨RPAREN, ")"⟩]))

/-- The tree the parser builds from the rendering of a supported tree: the
same shape, with the tokens and values the parser derives from the lexemes. -/
def reparsed : Expression → Expression
  | .nil => .nil
  | .nilPointer target => .nilPointer target
  | .Identifier i => .Identifier ⟨⟨IDENT, i.Value⟩, i.Value⟩
  | .IntegerLiteral tok _ => .IntegerLiteral ⟨INT, tok.Literal⟩ (decimalValue tok.Literal)
  | .BooleanLiteral tok _ =>
    .BooleanLiteral ⟨LookupIdent tok.Literal, tok.Literal⟩
      (decide (LookupIdent tok.Literal = TRUE))
  | .PrefixExpression _ op right => .PrefixExpression ⟨op, op⟩ op (reparsed right)
  | .InfixExpression _ left op right =>
    .InfixExpression ⟨op, op⟩ (reparsed left) op (reparsed right)

/-- The nesting height of a tree. -/
def height : Expression → Nat
  | .PrefixExpression _ _ right => height right + 1
  | .InfixExpression _ left _ right => max (height left) (height right) + 1
  | _ => 0

/-- The source text `a op1 b op2 c`, single spaces between the five lexemes. -/
def threeOperands (a op1 b op2 c : String) : String :=
  a ++ " " ++ op1 ++ " " ++ b ++ " " ++ op2 ++ " " ++ c

/-- One source line `let <ident> = <intLiteral>;`, newline included. -/
def letLine (ident literal : String) : String :=
  "let " ++ ident ++ " = " ++ literal ++ ";\n"

/-- The source text with one `let` line per pair (identifier, integer
literal). -/
def letSource : List (String × String) → String
  | [] => ""
  | (ident, literal) :: rest => letLine ident literal ++ letSource rest

/-- The statement the parser builds from the line `let <ident> = <literal>;`. -/
def letStatementOf (pair : String × String) : Statement :=
  .LetStatement ⟨LET, "let"⟩ ⟨⟨IDENT, pair.1⟩, pair.1⟩
    (.IntegerLiteral ⟨INT, pair.2⟩ (decimalValue pair.2))

/-- The tokens of the line `let <ident> = <literal>;`. -/
def letTokens (pair : String × String) : List Token :=
  [⟨LET, "let"⟩, ⟨IDENT, pair.1⟩, ⟨ASSIGN, "="⟩, ⟨INT, pair.2⟩, ⟨SEMICOLON, ";"⟩]

/-- The tokens of a `let` source text, line after line. -/
def letSourceTokens : List (String × String) → List Token
  | [] => []
  | pair :: rest => letTokens pair ++ letSourceTokens rest

/-- A present expression all of whose operands, at every depth, are present:
no `Left` or `Right` is the nil interface, which is what `!= nil` tests.  A nil
pointer held by the interface is present in this sense. -/
def operandsPresent : Expression → Bool
  | .nil => false
  | .nilPointer _ => true
  | .Identifier _ => true
  | .IntegerLiteral _ _ => true
  | .BooleanLiteral _ _ => true
  | .PrefixExpression _ _ right => operandsPresent right
  | .InfixExpression _ left _ right => operandsPresent left && operandsPresent right

/-- A node all of whose operands, at every depth, are nodes: neither the
expression nor any `Left` or `Right` below it is the nil interface or a nil
pointer. -/
def operandsHeld : Expression → Bool
  | .nil => false
  | .nilPointer _ => false
  | .Identifier _ => true
  | .IntegerLiteral _ _ => true
  | .BooleanLiteral _ _ => true
  | .PrefixExpression _ _ right => operandsHeld right
  | .InfixExpression _ left _ right => operandsHeld left && operandsHeld right

/-! ## Vocabulary of the lexer statements -/

/-- The tokens returned by `n` successive `NextToken` calls. -/
def nextTokens : Nat → Lexer → List Token
  | 0, _ => []
  | n + 1, l => (Lexer.NextToken l).1 :: nextTokens n (Lexer.NextToken l).2

/-- An identifier run: a non-empty run of letters and underscores (reserved
words included). -/
def isLetterRun (s : String) : Bool :=
  !s.data.isEmpty && s.data.all isLetter

/-- One of the fourteen single-character symbols. -/
def isSymbolLexeme (s : String) : Bool :=
  decide (s = "=" ∨ s = "+" ∨ s = "-" ∨ s = "!" ∨ s = "*" ∨ s = "/" ∨ s = "<" ∨ s = ">" ∨
    s = "," ∨ s = ";" ∨ s = "(" ∨ s = ")" ∨ s = "\x7b" ∨ s = "\x7d")

/-- A lexeme: an identifier run, a digit run or a single-character symbol. -/
def isLexeme (s : String) : Bool :=
  isLetterRun s || isIntLexeme s || isSymbolLexeme s

/-- A possibly empty run of whitespace. -/
def isWhitespaceRun (s : String) : Bool :=
  s.data.all isWhitespace

/-- The token expected for a lexeme: `LookupIdent` gives the kind of an
identifier run, a digit run is an `INT`, and a symbol has its own kind, which
in `token.go` is the symbol's text (`ASSIGN = "="`, `PLUS = "+"`, ...). -/
def lexemeToken (s : String) : Token :=
  if isLetterRun s then ⟨LookupIdent s, s⟩
  else if isIntLexeme s then ⟨INT, s⟩
  else ⟨s, s⟩

/-- The source text made of the given lexemes, each preceded by its
whitespace, followed by trailing whitespace. -/
def lexemeSource : List (String × String) → String → String
  | [], trail => trail
  | (ws, lexeme) :: rest, trail => ws ++ lexeme ++ lexemeSource rest trail

/-- Two lexemes that the lexer reads differently when nothing separates them:
two identifier runs or two digit runs form one run, and `=` after `=` or `!`
forms a two-character operator. -/
def merges (x y : String) : Bool :=
  (isLetterRun x && isLetterRun y) || (isIntLexeme x && isIntLexeme y) ||
    (decide (x = "=" ∨ x = "!") && decide (y = "="))

/-- Whitespace stands between every two consecutive lexemes that would
merge. -/
def separated : List (String × String) → Bool
  | [] => true
  | [_] => true
  | (_, x) :: (ws, y) :: rest =>
    (!ws.data.isEmpty || !merges x y) && separated ((ws, y) :: rest)

/-! ## Measures for termination -/

/-- One for a token that is not the end-of-input token, zero for it. -/
def tokenWeight (t : Token) : Nat := if t.Typ = EOF then 0 else 1

/-- An upper bound on the tokens the parser has not consumed yet: the unread
characters plus the two token slots. -/
def Parser.weight (p : Parser) : Nat :=
  p.l.length + tokenWeight p.peekToken + tokenWeight p.curToken

/-- Once the end of input has entered a token slot, nothing but end of input
follows it. -/
def Parser.Settled (p : Parser) : Prop :=
  (p.curToken.Typ = EOF → p.peekToken.Typ = EOF) ∧ (p.peekToken.Typ = EOF → p.l = [])

/-- A parsing step from `p` to `q` keeps the parser settled, does not put
tokens back and only appends to the error list. -/
def Progress (p q : Parser) : Prop :=
  q.Settled ∧ q.weight ≤ p.weight ∧ p.errors <+: q.errors

/-- With fuel `f`, `parseExpression` returns on every settled parser state of
weight below `f`, having made progress. -/
def ExpressionTotal (f : Nat) : Prop :=
  ∀ (p : Parser) (prec : Nat), p.Settled → p.weight + 1 ≤ f →
    ∃ e q, parseExpression f p prec = some (e, q) ∧ Progress p q

/-! ## Rendering of nodes -/

theorem writeStatements_buffer (xs : List Statement) (out : String) :
    writeStatements xs out = (writeStatements xs "").map (fun t => out ++ t) := by
  induction xs generalizing out with
  | nil => simp [writeStatements]
  | cons s rest ih =>
    cases hs : s.String with
    | none => simp [writeStatements, hs]
    | some t =>
      simp only [writeStatements, hs]
      rw [ih (out ++ t), ih ("" ++ t)]
      cases writeStatements rest "" <;> simp [String.append_assoc]

theorem writeStatements_append (xs ys : List Statement) (out : String) :
    writeStatements (xs ++ ys) out =
      (writeStatements xs out).bind (fun a => writeStatements ys a) := by
  induction xs generalizing out with
  | nil => simp [writeStatements]
  | cons s rest ih =>
    cases hs : s.String with
    | none => simp [writeStatements, hs]
    | some t => simp [writeStatements, hs, ih]

theorem string_prefixExpression (tok : Token) (op : String) (right : Expression) :
    (Expression.PrefixExpression tok op right).String =
      right.String.bind (fun r => some ("(" ++ op ++ r ++ ")")) := by
  simp only [Expression.String]
  cases right.String <;> rfl

theorem string_infixExpression (tok : Token) (left : Expression) (op : String)
    (right : Expression) :
    (Expression.InfixExpression tok left op right).String =
      left.String.bind (fun l => right.String.bind (fun r =>
        some ("(" ++ l ++ " " ++ op ++ " " ++ r ++ ")"))) := by
  simp only [Expression.String]
  cases left.String <;> cases right.String <;> rfl

/-- C1: an `InfixExpression` whose `Left` and `Right` are present renders as
`"(" + Left.String() + " " + Operator + " " + Right.String() + ")"`, for every
`Token` of the node (a failing operand rendering makes the whole rendering
fail). -/
theorem infixExpression_string (tok : Token) (left right : Expression) (op : String)
    (hl : left ≠ Expression.nil) (hr : right ≠ Expression.nil) :
    (Expression.InfixExpression tok left op right).String =
      left.String.bind (fun l => right.String.bind (fun r =>
        some ("(" ++ l ++ " " ++ op ++ " " ++ r ++ ")"))) := by
  by_cases h1 : left = Expression.nil
  · exact absurd h1 hl
  · by_cases h2 : right = Expression.nil
    · exact absurd h2 hr
    · exact string_infixExpression tok left op right

theorem infixExpression_string_witness :
    (Expression.InfixExpression ⟨PLUS, "+"⟩ (Expression.Identifier ⟨⟨IDENT, "a"⟩, "a"⟩) "+"
        (Expression.IntegerLiteral ⟨INT, "1"⟩ 1)).String = some "(a + 1)" :=
  (infixExpression_string ⟨PLUS, "+"⟩ (Expression.Identifier ⟨⟨IDENT, "a"⟩, "a"⟩)
    (Expression.IntegerLiteral ⟨INT, "1"⟩ 1) "+" (by decide) (by decide)).trans (by decide)

/-- C2: a `PrefixExpression` whose `Right` is present renders as
`"(" + Operator + Right.String() + ")"`, nothing standing between the operator
and the operand. -/
theorem prefixExpression_string (tok : Token) (op : String) (right : Expression)
    (hr : right ≠ Expression.nil) :
    (Expression.PrefixExpression tok op right).String =
      right.String.bind (fun r => some ("(" ++ op ++ r ++ ")")) := by
  by_cases h : right = Expression.nil
  · exact absurd h hr
  · exact string_prefixExpression tok op right

theorem prefixExpression_string_witness :
    (Expression.PrefixExpression ⟨MINUS, "-"⟩ "-"
        (Expression.Identifier ⟨⟨IDENT, "a"⟩, "a"⟩)).String = some "(-a)" :=
  (prefixExpression_string ⟨MINUS, "-"⟩ "-" (Expression.Identifier ⟨⟨IDENT, "a"⟩, "a"⟩)
    (by decide)).trans (by decide)

/-- C3: `LookupIdent` sends each of the seven reserved words to its own kind
and every other string to `IDENT`. -/
theorem lookupIdent_keywords :
    LookupIdent "fn" = FUNCTION ∧ LookupIdent "let" = LET ∧ LookupIdent "if" = IF ∧
    LookupIdent "else" = ELSE ∧ LookupIdent "true" = TRUE ∧ LookupIdent "false" = FALSE ∧
    LookupIdent "return" = RETURN ∧
    ∀ s : String, s ≠ "fn" → s ≠ "let" → s ≠ "if" → s ≠ "else" → s ≠ "true" →
      s ≠ "false" → s ≠ "return" → LookupIdent s = IDENT := by
  refine ⟨by decide, by decide, by decide, by decide, by decide, by decide, by decide, ?_⟩
  intro s h1 h2 h3 h4 h5 h6 h7
  simp [LookupIdent, keywords, List.lookup, beq_eq_false_iff_ne.mpr h1,
    beq_eq_false_iff_ne.mpr h2, beq_eq_false_iff_ne.mpr h3, beq_eq_false_iff_ne.mpr h4,
    beq_eq_false_iff_ne.mpr h5, beq_eq_false_iff_ne.mpr h6, beq_eq_false_iff_ne.mpr h7]

theorem lookupIdent_keywords_witness : LookupIdent "foobar" = IDENT :=
  lookupIdent_keywords.2.2.2.2.2.2.2 "foobar" (by decide) (by decide) (by decide)
    (by decide) (by decide) (by decide) (by decide)

/-- C7: `Program.String` concatenates the renderings of the statements in
order with no separator: the empty program renders `""`, a one-statement
program renders as its statement, and the rendering of `xs ++ ys` is the
rendering of `xs` followed by that of `ys`. -/
theorem program_string_concat :
    Program.String ⟨[]⟩ = some "" ∧
    (∀ s : Statement, Program.String ⟨[s]⟩ = s.String) ∧
    ∀ xs ys : List Statement,
      Program.String ⟨xs ++ ys⟩ =
        (Program.String ⟨xs⟩).bind (fun a => (Program.String ⟨ys⟩).bind (fun b =>
          some (a ++ b))) := by
  refine ⟨rfl, ?_, ?_⟩
  · intro s
    cases h : s.String <;> simp [Program.String, writeStatements, h]
  · intro xs ys
    simp only [Program.String]
    rw [writeStatements_append]
    cases hx : writeStatements xs "" with
    | none => rfl
    | some a =>
      show writeStatements ys a = (writeStatements ys "").bind fun b => some (a ++ b)
      rw [writeStatements_buffer ys a]
      cases writeStatements ys "" <;> rfl

/-- C8 as stated fails: a `LetStatement` whose token lexeme is not `"let"`
renders that lexeme, not `"let"`. -/
theorem letStatement_string_other_lexeme :
    (Statement.LetStatement ⟨LET, "var"⟩ ⟨⟨IDENT, "x"⟩, "x"⟩ Expression.nil).String =
        some "var x = ;" ∧
    (Statement.LetStatement ⟨LET, "var"⟩ ⟨⟨IDENT, "x"⟩, "x"⟩ Expression.nil).String ≠
        some ("let " ++ (Identifier.String ⟨⟨IDENT, "x"⟩, "x"⟩) ++ " = ;") := by
  decide

/-- C8 (amended): a `LetStatement` whose token lexeme is `"let"` renders as
`"let " + Name.String() + " = " + Value.String() + ";"` when `Value` is present
and as `"let " + Name.String() + " = ;"` when `Value` is absent. -/
theorem letStatement_string (tok : Token) (name : Identifier) (value : Expression)
    (htok : tok.Literal = "let") :
    (value ≠ Expression.nil →
      (Statement.LetStatement tok name value).String =
        value.String.bind (fun v => some ("let " ++ name.String ++ " = " ++ v ++ ";"))) ∧
    (value = Expression.nil →
      (Statement.LetStatement tok name value).String =
        some ("let " ++ name.String ++ " = ;")) := by
  constructor
  · intro hv
    simp only [Statement.String, hv, ne_eq, not_false_eq_true, if_true, htok]
    cases value.String <;> simp [String.append_assoc]
  · intro hv
    simp [Statement.String, hv, htok, String.append_assoc]

theorem letStatement_string_witness :
    (Statement.LetStatement ⟨LET, "let"⟩ ⟨⟨IDENT, "x"⟩, "x"⟩
        (Expression.IntegerLiteral ⟨INT, "5"⟩ 5)).String = some "let x = 5;" ∧
    (Statement.LetStatement ⟨LET, "let"⟩ ⟨⟨IDENT, "x"⟩, "x"⟩ Expression.nil).String =
        some "let x = ;" :=
  ⟨((letStatement_string ⟨LET, "let"⟩ ⟨⟨IDENT, "x"⟩, "x"⟩
      (Expression.IntegerLiteral ⟨INT, "5"⟩ 5) rfl).1 (by decide)).trans (by decide),
   ((letStatement_string ⟨LET, "let"⟩ ⟨⟨IDENT, "x"⟩, "x"⟩ Expression.nil rfl).2 rfl).trans
      (by decide)⟩

/-- C9: a `ReturnStatement` whose token lexeme is `"return"` renders as
`"return " + Value.String() + ";"` when `Value` is present and as `"return ;"`
when `Value` is absent. -/
theorem returnStatement_string (tok : Token) (value : Expression)
    (htok : tok.Literal = "return") :
    (value ≠ Expression.nil →
      (Statement.ReturnStatement tok value).String =
        value.String.bind (fun v => some ("return " ++ v ++ ";"))) ∧
    (value = Expression.nil →
      (Statement.ReturnStatement tok value).String = some "return ;") := by
  constructor
  · intro hv
    simp only [Statement.String, hv, ne_eq, not_false_eq_true, if_true, htok]
    cases value.String <;> simp
  · intro hv
    simp [Statement.String, hv, htok]

theorem returnStatement_string_witness :
    (Statement.ReturnStatement ⟨RETURN, "return"⟩
        (Expression.IntegerLiteral ⟨INT, "5"⟩ 5)).String = some "return 5;" ∧
    (Statement.ReturnStatement ⟨RETURN, "return"⟩ Expression.nil).String =
        some "return ;" :=
  ⟨((returnStatement_string ⟨RETURN, "return"⟩ (Expression.IntegerLiteral ⟨INT, "5"⟩ 5)
      rfl).1 (by decide)).trans (by decide),
   ((returnStatement_string ⟨RETURN, "return"⟩ Expression.nil rfl).2 rfl).trans (by decide)⟩

theorem string_eq_chars (e : Expression) (h : Supported e = true) :
    e.String = some (String.mk (chars e)) := by
  induction e with
  | nil => simp [Supported] at h
  | nilPointer k => simp [Supported] at h
  | Identifier i => simp [Expression.String, chars, Identifier.String]
  | IntegerLiteral tok v => simp [Expression.String, chars]
  | BooleanLiteral tok v => simp [Expression.String, chars]
  | PrefixExpression tok op r ih =>
    simp only [Supported, Bool.and_eq_true] at h
    simp only [Expression.String, ih h.2, chars]
    simp [String.ext_iff]
  | InfixExpression tok l op r ihl ihr =>
    simp only [Supported, Bool.and_eq_true] at h
    simp only [Expression.String, ihl h.1.2, ihr h.2, chars]
    simp [String.ext_iff]
/-! ## Characters and runs -/

theorem isLetter_not_isDigit (c : Char) (h : isLetter c = true) : isDigit c = false := by
  simp only [isLetter, isDigit, Bool.or_eq_true, Bool.and_eq_true, decide_eq_true_eq,
    beq_iff_eq, Bool.and_eq_false_imp] at *
  rcases h with (h | h) | h
  · intro; simp at *; omega
  · intro; simp at *; omega
  · subst h; decide

theorem delim_stops_letter (rest : List Char) (h : Delim rest) :
    ∀ c ∈ rest.head?, isLetter c = false := by
  intro c hc
  rcases h c hc with rfl | rfl <;> decide

theorem delim_stops_digit (rest : List Char) (h : Delim rest) :
    ∀ c ∈ rest.head?, isDigit c = false := by
  intro c hc
  rcases h c hc with rfl | rfl <;> decide

theorem delim_nil : Delim [] := by
  intro c hc
  simp at hc

theorem delim_space (rest : List Char) : Delim (' ' :: rest) := by
  intro c hc
  simp at hc
  exact Or.inl hc.symm

theorem delim_rparen (rest : List Char) : Delim (')' :: rest) := by
  intro c hc
  simp at hc
  exact Or.inr hc.symm

theorem takeWhile_run (p : Char → Bool) (v rest : List Char)
    (hv : ∀ c ∈ v, p c = true) (hr : ∀ c ∈ rest.head?, p c = false) :
    (v ++ rest).takeWhile p = v ∧ (v ++ rest).dropWhile p = rest := by
  induction v with
  | nil =>
    cases rest with
    | nil => simp
    | cons c cs =>
      have hc : p c = false := hr c (by simp)
      simp [List.takeWhile, List.dropWhile, hc]
  | cons a v ih =>
    have ha : p a = true := hv a (by simp)
    have hv1 : ∀ c ∈ v, p c = true := fun c hc => hv c (by simp [hc])
    simp [List.takeWhile, List.dropWhile, ha, ih hv1]

theorem run_unique (p : Char → Bool) (v w r s : List Char)
    (hv : ∀ c ∈ v, p c = true) (hw : ∀ c ∈ w, p c = true)
    (hr : ∀ c ∈ r.head?, p c = false) (hs : ∀ c ∈ s.head?, p c = false)
    (h : v ++ r = w ++ s) : v = w ∧ r = s := by
  have h1 := takeWhile_run p v r hv hr
  have h2 := takeWhile_run p w s hw hs
  rw [h] at h1
  exact ⟨h1.1.symm.trans h2.1, h1.2.symm.trans h2.2⟩

theorem isIdentName_spec (s : String) (h : isIdentName s = true) :
    (∃ c cs, s.data = c :: cs ∧ isLetter c = true) ∧
    (∀ c ∈ s.data, isLetter c = true) ∧ LookupIdent s = IDENT := by
  simp only [isIdentName, Bool.and_eq_true, Bool.not_eq_true', decide_eq_true_eq,
    List.all_eq_true] at h
  obtain ⟨⟨h1, h2⟩, h3⟩ := h
  refine ⟨?_, h2, h3⟩
  cases hd : s.data with
  | nil => simp [hd] at h1
  | cons c cs => exact ⟨c, cs, rfl, h2 c (by simp [hd])⟩

theorem isIntLexeme_spec (s : String) (h : isIntLexeme s = true) :
    (∃ c cs, s.data = c :: cs ∧ isDigit c = true) ∧ (∀ c ∈ s.data, isDigit c = true) := by
  simp only [isIntLexeme, Bool.and_eq_true, Bool.not_eq_true', List.all_eq_true] at h
  obtain ⟨h1, h2⟩ := h
  refine ⟨?_, h2⟩
  cases hd : s.data with
  | nil => simp [hd] at h1
  | cons c cs => exact ⟨c, cs, rfl, h2 c (by simp [hd])⟩

/-! ## Unique readability of the rendering -/

theorem isPrefixOperator_spec (op : String) (h : isPrefixOperator op = true) :
    op = "!" ∨ op = "-" := by
  simpa [isPrefixOperator] using h

theorem isInfixOperator_spec (op : String) (h : isInfixOperator op = true) :
    op = "+" ∨ op = "-" ∨ op = "*" ∨ op = "/" ∨ op = "<" ∨ op = ">" ∨
      op = "==" ∨ op = "!=" := by
  simpa [isInfixOperator] using h

/-- The first character of a supported rendering is a letter, a digit or an
opening parenthesis. -/
theorem chars_head (e : Expression) (h : Supported e = true) :
    ∃ c cs, chars e = c :: cs ∧ (isLetter c = true ∨ isDigit c = true ∨ c = '(') := by
  cases e with
  | nil => simp [Supported] at h
  | nilPointer k => simp [Supported] at h
  | Identifier i =>
    obtain ⟨⟨c, cs, h1, h2⟩, _⟩ := isIdentName_spec i.Value h
    exact ⟨c, cs, h1, Or.inl h2⟩
  | IntegerLiteral tok v =>
    obtain ⟨⟨c, cs, h1, h2⟩, _⟩ := isIntLexeme_spec tok.Literal h
    exact ⟨c, cs, h1, Or.inr (Or.inl h2)⟩
  | BooleanLiteral tok v =>
    simp only [Supported, decide_eq_true_eq] at h
    rcases h with h | h
    · exact ⟨'t', ['r', 'u', 'e'], by simp [chars, h], Or.inl (by decide)⟩
    · exact ⟨'f', ['a', 'l', 's', 'e'], by simp [chars, h], Or.inl (by decide)⟩
  | PrefixExpression tok op r => exact ⟨'(', _, rfl, Or.inr (Or.inr rfl)⟩
  | InfixExpression tok l op r => exact ⟨'(', _, rfl, Or.inr (Or.inr rfl)⟩

theorem infix_operator_unique (o1 o2 : String) (x y : List Char)
    (h1 : isInfixOperator o1 = true) (h2 : isInfixOperator o2 = true)
    (h : o1.data ++ ' ' :: x = o2.data ++ ' ' :: y) : o1 = o2 ∧ x = y := by
  rcases isInfixOperator_spec o1 h1 with rfl | rfl | rfl | rfl | rfl | rfl | rfl | rfl <;>
  rcases isInfixOperator_spec o2 h2 with rfl | rfl | rfl | rfl | rfl | rfl | rfl | rfl <;>
  simp_all

theorem prefix_operator_unique (o1 o2 : String) (x y : List Char)
    (h1 : isPrefixOperator o1 = true) (h2 : isPrefixOperator o2 = true)
    (h : o1.data ++ x = o2.data ++ y) : o1 = o2 ∧ x = y := by
  rcases isPrefixOperator_spec o1 h1 with rfl | rfl <;>
  rcases isPrefixOperator_spec o2 h2 with rfl | rfl <;>
  simp_all

theorem prefix_operator_not_head (op : String) (e : Expression) (x y : List Char)
    (h1 : isPrefixOperator op = true) (h2 : Supported e = true)
    (h : op.data ++ x = chars e ++ y) : False := by
  obtain ⟨c, cs, hc, hk⟩ := chars_head e h2
  rw [hc] at h
  rcases isPrefixOperator_spec op h1 with rfl | rfl
  · simp only [List.cons_append, List.nil_append, List.cons.injEq] at h
    obtain ⟨rfl, _⟩ := h
    revert hk
    decide
  · simp only [List.cons_append, List.nil_append, List.cons.injEq] at h
    obtain ⟨rfl, _⟩ := h
    revert hk
    decide

theorem boolean_lexeme_spec (s : String) (h : s = "true" ∨ s = "false") :
    (∃ c cs, s.data = c :: cs ∧ isLetter c = true) ∧
    (∀ c ∈ s.data, isLetter c = true) ∧ LookupIdent s ≠ IDENT := by
  rcases h with rfl | rfl
  · exact ⟨⟨'t', ['r', 'u', 'e'], rfl, by decide⟩, by decide, by decide⟩
  · exact ⟨⟨'f', ['a', 'l', 's', 'e'], rfl, by decide⟩, by decide, by decide⟩

theorem letter_run_ne_digit_run (v w r s : List Char)
    (hv : ∃ c cs, v = c :: cs ∧ isLetter c = true)
    (hw : ∃ c cs, w = c :: cs ∧ isDigit c = true) (h : v ++ r = w ++ s) : False := by
  obtain ⟨c, cs, rfl, hc⟩ := hv
  obtain ⟨d, ds, rfl, hd⟩ := hw
  simp only [List.cons_append, List.cons.injEq] at h
  obtain ⟨rfl, _⟩ := h
  rw [isLetter_not_isDigit _ hc] at hd
  exact Bool.noConfusion hd

theorem letter_run_ne_paren (v r s : List Char)
    (hv : ∃ c cs, v = c :: cs ∧ isLetter c = true) (h : v ++ r = '(' :: s) : False := by
  obtain ⟨c, cs, rfl, hc⟩ := hv
  simp only [List.cons_append, List.cons.injEq] at h
  obtain ⟨rfl, _⟩ := h
  revert hc
  decide

theorem digit_run_ne_paren (v r s : List Char)
    (hv : ∃ c cs, v = c :: cs ∧ isDigit c = true) (h : v ++ r = '(' :: s) : False := by
  obtain ⟨c, cs, rfl, hc⟩ := hv
  simp only [List.cons_append, List.cons.injEq] at h
  obtain ⟨rfl, _⟩ := h
  revert hc
  decide

/-- Unique readability: two supported renderings, each followed by nothing, a
space or a closing parenthesis, that agree as character sequences come from
trees of the same shape and are followed by the same characters. -/
theorem chars_unique (e1 : Expression) :
    ∀ (e2 : Expression) (r1 r2 : List Char), Supported e1 = true → Supported e2 = true →
      Delim r1 → Delim r2 → chars e1 ++ r1 = chars e2 ++ r2 →
      sameShape e1 e2 ∧ r1 = r2 := by
  induction e1 with
  | nil =>
    intro e2 r1 r2 h1
    simp [Supported] at h1
  | nilPointer k =>
    intro e2 r1 r2 h1
    simp [Supported] at h1
  | Identifier i =>
    intro e2 r1 r2 h1 h2 d1 d2 h
    obtain ⟨hhead, hall, hk⟩ := isIdentName_spec i.Value h1
    cases e2 with
    | nil => simp [Supported] at h2
    | nilPointer k => simp [Supported] at h2
    | Identifier j =>
      obtain ⟨_, hall2, _⟩ := isIdentName_spec j.Value h2
      have hu := run_unique isLetter _ _ _ _ hall hall2 (delim_stops_letter _ d1)
        (delim_stops_letter _ d2) h
      exact ⟨String.ext hu.1, hu.2⟩
    | IntegerLiteral tok v =>
      exact (letter_run_ne_digit_run _ _ _ _ hhead (isIntLexeme_spec tok.Literal h2).1 h).elim
    | BooleanLiteral tok v =>
      simp only [Supported, decide_eq_true_eq] at h2
      obtain ⟨_, hall2, hk2⟩ := boolean_lexeme_spec tok.Literal h2
      have hu := run_unique isLetter _ _ _ _ hall hall2 (delim_stops_letter _ d1)
        (delim_stops_letter _ d2) h
      rw [String.ext hu.1] at hk
      exact (hk2 hk).elim
    | PrefixExpression tok op r => exact (letter_run_ne_paren _ _ _ hhead h).elim
    | InfixExpression tok l op r => exact (letter_run_ne_paren _ _ _ hhead h).elim
  | IntegerLiteral tok v =>
    intro e2 r1 r2 h1 h2 d1 d2 h
    obtain ⟨hhead, hall⟩ := isIntLexeme_spec tok.Literal h1
    cases e2 with
    | nil => simp [Supported] at h2
    | nilPointer k => simp [Supported] at h2
    | Identifier j =>
      exact (letter_run_ne_digit_run _ _ _ _ (isIdentName_spec j.Value h2).1 hhead h.symm).elim
    | IntegerLiteral tok2 v2 =>
      obtain ⟨_, hall2⟩ := isIntLexeme_spec tok2.Literal h2
      have hu := run_unique isDigit _ _ _ _ hall hall2 (delim_stops_digit _ d1)
        (delim_stops_digit _ d2) h
      exact ⟨String.ext hu.1, hu.2⟩
    | BooleanLiteral tok2 v2 =>
      simp only [Supported, decide_eq_true_eq] at h2
      exact (letter_run_ne_digit_run _ _ _ _ (boolean_lexeme_spec tok2.Literal h2).1 hhead
        h.symm).elim
    | PrefixExpression tok2 op r => exact (digit_run_ne_paren _ _ _ hhead h).elim
    | InfixExpression tok2 l op r => exact (digit_run_ne_paren _ _ _ hhead h).elim
  | BooleanLiteral tok v =>
    intro e2 r1 r2 h1 h2 d1 d2 h
    simp only [Supported, decide_eq_true_eq] at h1
    obtain ⟨hhead, hall, hk⟩ := boolean_lexeme_spec tok.Literal h1
    cases e2 with
    | nil => simp [Supported] at h2
    | nilPointer k => simp [Supported] at h2
    | Identifier j =>
      obtain ⟨_, hall2, hk2⟩ := isIdentName_spec j.Value h2
      have hu := run_unique isLetter _ _ _ _ hall hall2 (delim_stops_letter _ d1)
        (delim_stops_letter _ d2) h
      rw [String.ext hu.1] at hk
      exact (hk hk2).elim
    | IntegerLiteral tok2 v2 =>
      exact (letter_run_ne_digit_run _ _ _ _ hhead (isIntLexeme_spec tok2.Literal h2).1 h).elim
    | BooleanLiteral tok2 v2 =>
      simp only [Supported, decide_eq_true_eq] at h2
      obtain ⟨_, hall2, _⟩ := boolean_lexeme_spec tok2.Literal h2
      have hu := run_unique isLetter _ _ _ _ hall hall2 (delim_stops_letter _ d1)
        (delim_stops_letter _ d2) h
      exact ⟨String.ext hu.1, hu.2⟩
    | PrefixExpression tok2 op r => exact (letter_run_ne_paren _ _ _ hhead h).elim
    | InfixExpression tok2 l op r => exact (letter_run_ne_paren _ _ _ hhead h).elim
  | PrefixExpression tok op r ih =>
    intro e2 r1 r2 h1 h2 d1 d2 h
    simp only [Supported, Bool.and_eq_true] at h1
    cases e2 with
    | nil => simp [Supported] at h2
    | nilPointer k => simp [Supported] at h2
    | Identifier j =>
      exact (letter_run_ne_paren _ _ _ (isIdentName_spec j.Value h2).1 h.symm).elim
    | IntegerLiteral tok2 v2 =>
      exact (digit_run_ne_paren _ _ _ (isIntLexeme_spec tok2.Literal h2).1 h.symm).elim
    | BooleanLiteral tok2 v2 =>
      simp only [Supported, decide_eq_true_eq] at h2
      exact (letter_run_ne_paren _ _ _ (boolean_lexeme_spec tok2.Literal h2).1 h.symm).elim
    | PrefixExpression tok2 op2 r2' =>
      simp only [Supported, Bool.and_eq_true] at h2
      simp only [chars, List.cons_append, List.append_assoc, List.cons.injEq, true_and,
        List.nil_append] at h
      obtain ⟨hop, hrest⟩ := prefix_operator_unique _ _ _ _ h1.1 h2.1 h
      obtain ⟨hs, hr⟩ := ih r2' (')' :: r1) (')' :: r2) h1.2 h2.2 (delim_rparen _)
        (delim_rparen _) hrest
      exact ⟨⟨hop, hs⟩, by simpa using hr⟩
    | InfixExpression tok2 l2 op2 r2' =>
      simp only [Supported, Bool.and_eq_true] at h2
      simp only [chars, List.cons_append, List.append_assoc, List.cons.injEq, true_and,
        List.nil_append] at h
      exact (prefix_operator_not_head _ _ _ _ h1.1 h2.1.2 h).elim
  | InfixExpression tok l op r ihl ihr =>
    intro e2 r1 r2 h1 h2 d1 d2 h
    simp only [Supported, Bool.and_eq_true] at h1
    cases e2 with
    | nil => simp [Supported] at h2
    | nilPointer k => simp [Supported] at h2
    | Identifier j =>
      exact (letter_run_ne_paren _ _ _ (isIdentName_spec j.Value h2).1 h.symm).elim
    | IntegerLiteral tok2 v2 =>
      exact (digit_run_ne_paren _ _ _ (isIntLexeme_spec tok2.Literal h2).1 h.symm).elim
    | BooleanLiteral tok2 v2 =>
      simp only [Supported, decide_eq_true_eq] at h2
      exact (letter_run_ne_paren _ _ _ (boolean_lexeme_spec tok2.Literal h2).1 h.symm).elim
    | PrefixExpression tok2 op2 r2' =>
      simp only [Supported, Bool.and_eq_true] at h2
      simp only [chars, List.cons_append, List.append_assoc, List.cons.injEq, true_and,
        List.nil_append] at h
      exact (prefix_operator_not_head _ _ _ _ h2.1 h1.1.2 h.symm).elim
    | InfixExpression tok2 l2 op2 r2' =>
      simp only [Supported, Bool.and_eq_true] at h2
      simp only [chars, List.cons_append, List.append_assoc, List.cons.injEq, true_and,
        List.nil_append] at h
      obtain ⟨hsl, hl⟩ := ihl l2 _ _ h1.1.2 h2.1.2 (delim_space _) (delim_space _) h
      simp only [List.cons.injEq, true_and] at hl
      obtain ⟨hop, hrest⟩ := infix_operator_unique _ _ _ _ h1.1.1 h2.1.1 hl
      obtain ⟨hsr, hr⟩ := ihr r2' (')' :: r1) (')' :: r2) h1.2 h2.2 (delim_rparen _)
        (delim_rparen _) hrest
      exact ⟨⟨hsl, hop, hsr⟩, by simpa using hr⟩

/-- C4: two supported trees with the same `String()` have the same shape: the
same node variant, operator and leaf text at every position. -/
theorem string_injective_on_shape (e1 e2 : Expression) (h1 : Supported e1 = true)
    (h2 : Supported e2 = true) (h : e1.String = e2.String) : sameShape e1 e2 := by
  rw [string_eq_chars e1 h1, string_eq_chars e2 h2] at h
  have hc : chars e1 ++ [] = chars e2 ++ [] := by
    simpa using congrArg String.data (Option.some.inj h)
  exact (chars_unique e1 e2 [] [] h1 h2 delim_nil delim_nil hc).1

theorem string_injective_on_shape_witness :
    sameShape
      (Expression.InfixExpression ⟨PLUS, "+"⟩ (Expression.Identifier ⟨⟨IDENT, "a"⟩, "a"⟩) "+"
        (Expression.PrefixExpression ⟨MINUS, "-"⟩ "-" (Expression.IntegerLiteral ⟨INT, "5"⟩ 5)))
      (Expression.InfixExpression ⟨ILLEGAL, "?"⟩ (Expression.Identifier ⟨⟨LET, "let"⟩, "a"⟩)
        "+" (Expression.PrefixExpression ⟨BANG, "!"⟩ "-"
          (Expression.IntegerLiteral ⟨INT, "5"⟩ 7))) :=
  string_injective_on_shape _ _ (by decide) (by decide) (by decide)

/-! ## The lexer on runs and symbols -/

theorem nextToken_space (l : Lexer) : Lexer.NextToken (' ' :: l) = Lexer.NextToken l := by
  simp [Lexer.NextToken, skipWhitespace, isWhitespace]

theorem nextToken_newline (l : Lexer) : Lexer.NextToken ('\n' :: l) = Lexer.NextToken l := by
  simp [Lexer.NextToken, skipWhitespace, isWhitespace]

theorem isLetter_not_isWhitespace (c : Char) (h : isLetter c = true) :
    isWhitespace c = false := by
  simp only [isWhitespace, Bool.or_eq_false_iff, beq_eq_false_iff_ne]
  refine ⟨⟨⟨?_, ?_⟩, ?_⟩, ?_⟩ <;> · rintro rfl; revert h; decide

theorem isDigit_not_isWhitespace (c : Char) (h : isDigit c = true) :
    isWhitespace c = false := by
  simp only [isWhitespace, Bool.or_eq_false_iff, beq_eq_false_iff_ne]
  refine ⟨⟨⟨?_, ?_⟩, ?_⟩, ?_⟩ <;> · rintro rfl; revert h; decide

theorem nextToken_letters (c : Char) (cs rest : List Char)
    (hv : ∀ a ∈ c :: cs, isLetter a = true) (hr : ∀ a ∈ rest.head?, isLetter a = false) :
    Lexer.NextToken (c :: cs ++ rest) =
      (⟨LookupIdent (String.mk (c :: cs)), String.mk (c :: cs)⟩, rest) := by
  have hc : isLetter c = true := hv c (by simp)
  have hrun := takeWhile_run isLetter (c :: cs) rest hv hr
  simp only [List.cons_append] at hrun
  have hsk : skipWhitespace (c :: (cs ++ rest)) = c :: (cs ++ rest) := by
    simp [skipWhitespace, isLetter_not_isWhitespace c hc]
  simp only [Lexer.NextToken, List.cons_append, hsk]
  rw [if_pos hc, hrun.1, hrun.2]

theorem nextToken_digits (c : Char) (cs rest : List Char)
    (hv : ∀ a ∈ c :: cs, isDigit a = true) (hr : ∀ a ∈ rest.head?, isDigit a = false) :
    Lexer.NextToken (c :: cs ++ rest) = (⟨INT, String.mk (c :: cs)⟩, rest) := by
  have hc : isDigit c = true := hv c (by simp)
  have hl : isLetter c = false := by
    cases h : isLetter c with
    | false => rfl
    | true => rw [isLetter_not_isDigit c h] at hc; exact Bool.noConfusion hc
  have hrun := takeWhile_run isDigit (c :: cs) rest hv hr
  simp only [List.cons_append] at hrun
  have hsk : skipWhitespace (c :: (cs ++ rest)) = c :: (cs ++ rest) := by
    simp [skipWhitespace, isDigit_not_isWhitespace c hc]
  simp only [Lexer.NextToken, List.cons_append, hsk]
  rw [if_neg (by simp [hl]), if_pos hc, hrun.1, hrun.2]

theorem nextToken_lparen (l : Lexer) :
    Lexer.NextToken ('(' :: l) = (⟨LPAREN, "("⟩, l) := by
  simp [Lexer.NextToken, skipWhitespace, isWhitespace, isLetter, isDigit, symbolKind]
  rfl

theorem nextToken_rparen (l : Lexer) :
    Lexer.NextToken (')' :: l) = (⟨RPAREN, ")"⟩, l) := by
  simp [Lexer.NextToken, skipWhitespace, isWhitespace, isLetter, isDigit, symbolKind]
  rfl

theorem nextToken_semicolon (l : Lexer) :
    Lexer.NextToken (';' :: l) = (⟨SEMICOLON, ";"⟩, l) := by
  simp [Lexer.NextToken, skipWhitespace, isWhitespace, isLetter, isDigit, symbolKind]
  rfl

theorem nextToken_assign_space (l : Lexer) :
    Lexer.NextToken ('=' :: ' ' :: l) = (⟨ASSIGN, "="⟩, ' ' :: l) := by
  simp [Lexer.NextToken, skipWhitespace, isWhitespace, isLetter, isDigit, symbolKind]
  rfl

theorem nextToken_infix_operator (op : String) (l : Lexer) (h : isInfixOperator op = true) :
    Lexer.NextToken (op.data ++ ' ' :: l) = (⟨op, op⟩, ' ' :: l) := by
  rcases isInfixOperator_spec op h with rfl | rfl | rfl | rfl | rfl | rfl | rfl | rfl <;>
  · simp [Lexer.NextToken, skipWhitespace, isWhitespace, isLetter, isDigit, symbolKind]
    try rfl

theorem nextToken_prefix_operator (op : String) (c : Char) (l : Lexer)
    (h : isPrefixOperator op = true) (hc : c ≠ '=') :
    Lexer.NextToken (op.data ++ c :: l) = (⟨op, op⟩, c :: l) := by
  rcases isPrefixOperator_spec op h with rfl | rfl <;>
  · simp [Lexer.NextToken, skipWhitespace, isWhitespace, isLetter, isDigit, symbolKind, hc]
    try rfl

/-! ## Token streams of renderings -/

theorem gen_cons (l l1 : Lexer) (t : Token) (ts : List Token)
    (h : Lexer.NextToken l = (t, l1)) (ht : t.Typ ≠ EOF) (hg : Gen l1 ts) :
    Gen l (t :: ts) := by
  simp only [Gen, h]
  exact ⟨trivial, ht, hg⟩

theorem gen_space (l : Lexer) (ts : List Token) (h : Gen l ts) : Gen (' ' :: l) ts := by
  cases ts with
  | nil =>
    simp only [Gen] at *
    simpa [skipWhitespace, isWhitespace] using h
  | cons t ts =>
    simp only [Gen, nextToken_space] at *
    exact h

theorem gen_newline (l : Lexer) (ts : List Token) (h : Gen l ts) : Gen ('\n' :: l) ts := by
  cases ts with
  | nil =>
    simp only [Gen] at *
    simpa [skipWhitespace, isWhitespace] using h
  | cons t ts =>
    simp only [Gen, nextToken_newline] at *
    exact h

theorem gen_nil_nil : Gen [] [] := by
  simp [Gen, skipWhitespace]

theorem infix_operator_ne_eof (op : String) (h : isInfixOperator op = true) : op ≠ EOF := by
  rcases isInfixOperator_spec op h with rfl | rfl | rfl | rfl | rfl | rfl | rfl | rfl <;> decide

theorem prefix_operator_ne_eof (op : String) (h : isPrefixOperator op = true) : op ≠ EOF := by
  rcases isPrefixOperator_spec op h with rfl | rfl <;> decide

/-- Lexing the rendering of a supported tree yields its tokens, then whatever
the following text yields. -/
theorem gen_chars (e : Expression) :
    ∀ (rest : List Char) (ts : List Token), Supported e = true → Delim rest →
      Gen rest ts → Gen (chars e ++ rest) (toks e ++ ts) := by
  induction e with
  | nil =>
    intro rest ts h
    simp [Supported] at h
  | nilPointer k =>
    intro rest ts h
    simp [Supported] at h
  | Identifier i =>
    intro rest ts h hd hg
    obtain ⟨⟨c, cs, hc, _⟩, hall, hk⟩ := isIdentName_spec i.Value h
    have hi : i.Value = String.mk (c :: cs) := String.ext hc
    rw [hc] at hall
    refine gen_cons _ rest _ _ ?_ (by show IDENT ≠ EOF; decide) hg
    simp only [chars, hc, nextToken_letters c cs rest hall (delim_stops_letter rest hd)]
    rw [← hi, hk]
  | IntegerLiteral tok v =>
    intro rest ts h hd hg
    obtain ⟨⟨c, cs, hc, _⟩, hall⟩ := isIntLexeme_spec tok.Literal h
    have hi : tok.Literal = String.mk (c :: cs) := String.ext hc
    rw [hc] at hall
    refine gen_cons _ rest _ _ ?_ (by show INT ≠ EOF; decide) hg
    simp only [chars, hc, nextToken_digits c cs rest hall (delim_stops_digit rest hd)]
    rw [← hi]
  | BooleanLiteral tok v =>
    intro rest ts h hd hg
    simp only [Supported, decide_eq_true_eq] at h
    obtain ⟨⟨c, cs, hc, _⟩, hall, hk⟩ := boolean_lexeme_spec tok.Literal h
    have hi : tok.Literal = String.mk (c :: cs) := String.ext hc
    rw [hc] at hall
    refine gen_cons _ rest _ _ ?_ ?_ hg
    · simp only [chars, hc, nextToken_letters c cs rest hall (delim_stops_letter rest hd)]
      rw [← hi]
    · rcases h with h | h <;> rw [h] <;> decide
  | PrefixExpression tok op r ih =>
    intro rest ts h hd hg
    simp only [Supported, Bool.and_eq_true] at h
    obtain ⟨c, cs, hc, hk⟩ := chars_head r h.2
    have hne : c ≠ '=' := by
      rintro rfl
      revert hk
      decide
    have hr := ih (')' :: rest) (⟨RPAREN, ")"⟩ :: ts) h.2 (delim_rparen rest)
      (gen_cons _ _ _ _ (nextToken_rparen rest) (by decide) hg)
    simp only [chars, toks, List.cons_append, List.append_assoc, List.nil_append]
    refine gen_cons _ _ _ _ (nextToken_lparen _) (by decide) ?_
    refine gen_cons _ (chars r ++ ')' :: rest) _ _ ?_ (prefix_operator_ne_eof op h.1) hr
    rw [hc]
    exact nextToken_prefix_operator op c _ h.1 hne
  | InfixExpression tok l op r ihl ihr =>
    intro rest ts h hd hg
    simp only [Supported, Bool.and_eq_true] at h
    have hr := ihr (')' :: rest) (⟨RPAREN, ")"⟩ :: ts) h.2 (delim_rparen rest)
      (gen_cons _ _ _ _ (nextToken_rparen rest) (by decide) hg)
    have hop : Gen (op.data ++ ' ' :: (chars r ++ ')' :: rest))
        (⟨op, op⟩ :: (toks r ++ ⟨RPAREN, ")"⟩ :: ts)) :=
      gen_cons _ _ _ _ (nextToken_infix_operator op _ h.1.1) (infix_operator_ne_eof op h.1.1)
        (gen_space _ _ hr)
    have hl := ihl _ _ h.1.2 (delim_space _) (gen_space _ _ hop)
    simp only [chars, toks, List.cons_append, List.append_assoc, List.nil_append]
    exact gen_cons _ _ _ _ (nextToken_lparen _) (by decide) hl

/-! ## The parser over a token stream -/

theorem nextToken_of_gen_nil (l : Lexer) (h : Gen l []) :
    Lexer.NextToken l = (eofToken, []) := by
  simp only [Gen] at h
  simp [Lexer.NextToken, h, eofToken]

theorem reads_next (p : Parser) (ts : List Token) (h : Reads p ts) :
    Reads p.nextToken ts.tail := by
  obtain ⟨hcur, hpeek, hrest⟩ := h
  cases hts : ts.tail.tail with
  | nil =>
    rw [hts] at hrest
    have hn := nextToken_of_gen_nil p.l hrest
    refine ⟨hpeek, ?_, ?_⟩
    · simp [Parser.nextToken, hn, hts]
    · simp only [Parser.nextToken, hn, hts, List.tail_nil]
      exact gen_nil_nil
  | cons t ts1 =>
    rw [hts] at hrest
    simp only [Gen] at hrest
    refine ⟨hpeek, ?_, ?_⟩
    · simp [Parser.nextToken, hrest.1, hts]
    · simp only [Parser.nextToken, hts, List.tail_cons]
      exact hrest.2.2

theorem nextToken_errors (p : Parser) : p.nextToken.errors = p.errors := rfl

theorem nextToken_curToken (p : Parser) : p.nextToken.curToken = p.peekToken := rfl

theorem reads_new (l : Lexer) (ts : List Token) (h : Gen l ts) :
    Reads (Parser.New l) ts ∧ (Parser.New l).errors = [] := by
  have h0 : Reads ⟨l, ⟨"", ""⟩, ⟨"", ""⟩, []⟩ (⟨"", ""⟩ :: ⟨"", ""⟩ :: ts) := ⟨rfl, rfl, h⟩
  exact ⟨reads_next _ _ (reads_next _ _ h0), rfl⟩

theorem nextToken_length_le (l : Lexer) (c : Char) (cs : List Char)
    (h : skipWhitespace l = c :: cs) : (Lexer.NextToken l).2.length ≤ cs.length := by
  simp only [Lexer.NextToken, h]
  split_ifs with h1 h2 h3 h4
  · simp only [List.dropWhile, h1]
    exact (List.dropWhile_sublist _).length_le
  · simp only [List.dropWhile, h2]
    exact (List.dropWhile_sublist _).length_le
  · simp
  · simp
  · split <;> simp

theorem skipWhitespace_length_le (l : Lexer) : (skipWhitespace l).length ≤ l.length := by
  induction l with
  | nil => simp [skipWhitespace]
  | cons c cs ih =>
    simp only [skipWhitespace]
    split_ifs
    · exact Nat.le_succ_of_le ih
    · exact Nat.le_refl _

/-- A lexer state that still yields `n` tokens has at least `n` unread
characters. -/
theorem gen_length (ts : List Token) : ∀ l : Lexer, Gen l ts → ts.length ≤ l.length := by
  induction ts with
  | nil => intro l _; simp
  | cons t ts ih =>
    intro l h
    simp only [Gen] at h
    obtain ⟨h1, h2, h3⟩ := h
    cases hs : skipWhitespace l with
    | nil =>
      have : Lexer.NextToken l = (eofToken, []) := nextToken_of_gen_nil l hs
      rw [this] at h1
      exact (h2 (by rw [← h1]; rfl)).elim
    | cons c cs =>
      have hle := nextToken_length_le l c cs hs
      have hsk := skipWhitespace_length_le l
      rw [hs] at hsk
      have := ih _ h3
      simp only [List.length_cons] at *
      omega

theorem infixLoop_stop (recur : ExprParser) (prec n : Nat) (left : Expression) (p : Parser)
    (h : p.peekToken.Typ = SEMICOLON ∨ p.peekPrecedence ≤ prec) :
    infixLoop recur prec (n + 1) left p = some (left, p) := by
  simp only [infixLoop]
  rw [if_neg]
  rintro ⟨h1, h2⟩
  rcases h with h | h
  · exact h1 h
  · omega

theorem infix_operator_precedence (op : String) (h : isInfixOperator op = true) :
    LOWEST < tokenPrecedence op ∧ op ≠ SEMICOLON ∧
      infixParseFns op = some parseInfixExpression := by
  rcases isInfixOperator_spec op h with rfl | rfl | rfl | rfl | rfl | rfl | rfl | rfl <;>
  exact ⟨by decide, by decide, by simp [infixParseFns]⟩

theorem infixLoop_step (recur : ExprParser) (prec n : Nat) (left : Expression) (p : Parser)
    (hop : isInfixOperator p.peekToken.Typ = true)
    (hprec : prec < tokenPrecedence p.peekToken.Typ) :
    infixLoop recur prec (n + 1) left p =
      match recur p.nextToken.nextToken (tokenPrecedence p.peekToken.Typ) with
      | none => none
      | some (right, p1) =>
        infixLoop recur prec n
          (Expression.InfixExpression p.peekToken left p.peekToken.Literal right) p1 := by
  obtain ⟨_, hsemi, hfn⟩ := infix_operator_precedence _ hop
  simp only [infixLoop]
  rw [if_pos ⟨hsemi, hprec⟩]
  simp only [nextToken_curToken, hfn, parseInfixExpression, Parser.curPrecedence]
  cases recur p.nextToken.nextToken (tokenPrecedence p.peekToken.Typ) with
  | none => rfl
  | some r => rfl

theorem parseExpression_of_prefixFn (f prec : Nat) (p p1 : Parser) (left : Expression)
    (pf : ExprParser → Parser → ExprResult)
    (hpf : prefixParseFns p.curToken.Typ = some pf)
    (hrun : pf (parseExpression f) p = some (left, p1)) :
    parseExpression (f + 1) p prec = infixLoop (parseExpression f) prec f left p1 := by
  simp only [parseExpression, hpf, hrun]

theorem parseGroupedExpression_ok (recur : ExprParser) (p p1 : Parser) (exp : Expression)
    (hrun : recur p.nextToken LOWEST = some (exp, p1)) (hpeek : p1.peekToken.Typ = RPAREN) :
    parseGroupedExpression recur p = some (exp, p1.nextToken) := by
  simp [parseGroupedExpression, hrun, Parser.expectPeek, hpeek]

theorem tokenPrecedence_rparen : tokenPrecedence RPAREN = 1 := by decide

theorem tokenPrecedence_eof : tokenPrecedence eofToken.Typ = 1 := by decide

theorem reparsed_string (e : Expression) : (reparsed e).String = e.String := by
  induction e with
  | nil => rfl
  | nilPointer k => rfl
  | Identifier i => rfl
  | IntegerLiteral tok v => rfl
  | BooleanLiteral tok v => rfl
  | PrefixExpression tok op r ih => simp only [reparsed, Expression.String, ih]
  | InfixExpression tok l op r ihl ihr => simp only [reparsed, Expression.String, ihl, ihr]

theorem reparsed_ne_nil (e : Expression) (h : Supported e = true) :
    reparsed e ≠ Expression.nil := by
  cases e <;> simp [Supported, reparsed] at h ⊢

/-- A complete expression parse from its prefix operation, when the token
after the expression does not bind: the infix loop stops at once. -/
theorem parseExpression_stop (f prec : Nat) (p p1 : Parser) (left : Expression)
    (pf : ExprParser → Parser → ExprResult)
    (hpf : prefixParseFns p.curToken.Typ = some pf)
    (hrun : pf (parseExpression (f + 1)) p = some (left, p1))
    (hstop : p1.peekToken.Typ = SEMICOLON ∨ p1.peekPrecedence ≤ prec) :
    parseExpression (f + 2) p prec = some (left, p1) := by
  rw [parseExpression_of_prefixFn (f + 1) prec p p1 left pf hpf hrun]
  exact infixLoop_stop _ _ _ _ _ hstop

/-- The prefix operation registered for the first token of a supported
rendering consumes exactly that rendering and builds the reparsed tree; a
whole `parseExpression` does so too when the following token does not bind. -/
theorem prefixFn_canon (e : Expression) (hs : Supported e = true) :
    ∀ (fuel : Nat) (p : Parser) (rest : List Token), 2 * height e + 1 ≤ fuel →
      Reads p (toks e ++ rest) →
      ∃ pf p1 t, prefixParseFns p.curToken.Typ = some pf ∧
        pf (parseExpression fuel) p = some (reparsed e, p1) ∧
        Reads p1 (t :: rest) ∧ p1.errors = p.errors := by
  induction e with
  | nil => simp [Supported] at hs
  | nilPointer k => simp [Supported] at hs
  | Identifier i =>
    intro fuel p rest _ hr
    have hcur : p.curToken = ⟨IDENT, i.Value⟩ := hr.cur
    refine ⟨fun _ p => parseIdentifier p, p, ⟨IDENT, i.Value⟩, ?_, ?_, hr, rfl⟩
    · rw [hcur]; rfl
    · simp [parseIdentifier, hcur, reparsed]
  | IntegerLiteral tok v =>
    intro fuel p rest _ hr
    have hcur : p.curToken = ⟨INT, tok.Literal⟩ := hr.cur
    refine ⟨fun _ p => parseIntegerLiteral p, p, ⟨INT, tok.Literal⟩, ?_, ?_, hr, rfl⟩
    · rw [hcur]; rfl
    · simp [parseIntegerLiteral, hcur, reparsed]
  | BooleanLiteral tok v =>
    intro fuel p rest _ hr
    have hcur : p.curToken = ⟨LookupIdent tok.Literal, tok.Literal⟩ := hr.cur
    simp only [Supported, decide_eq_true_eq] at hs
    refine ⟨fun _ p => parseBoolean p, p, _, ?_, ?_, hr, rfl⟩
    · rw [hcur]
      rcases hs with h | h <;> rw [h] <;> rfl
    · simp [parseBoolean, hcur, reparsed]
  | PrefixExpression tok op r ih =>
    intro fuel p rest hfuel hr
    simp only [Supported, Bool.and_eq_true] at hs
    simp only [height] at hfuel
    obtain ⟨g, rfl⟩ : ∃ g, fuel = g + 3 := ⟨fuel - 3, by omega⟩
    simp only [toks, List.cons_append, List.append_assoc, List.nil_append] at hr
    have hcur : p.curToken.Typ = LPAREN := by rw [hr.cur]; rfl
    have hr1 := reads_next _ _ hr
    have hr2 := reads_next _ _ hr1
    simp only [List.tail_cons] at hr1 hr2
    have hcur1 : p.nextToken.curToken = ⟨op, op⟩ := hr1.cur
    -- the operand, parsed at level PREFIX
    obtain ⟨pf, p3, t, hpf, hrun, hr3, herr3⟩ := ih hs.2 (g + 1) p.nextToken.nextToken
      (⟨RPAREN, ")"⟩ :: rest) (by omega) hr2
    have hpeek3 : p3.peekToken = ⟨RPAREN, ")"⟩ := hr3.peek
    have hstop3 : ∀ prec, p3.peekToken.Typ = SEMICOLON ∨ p3.peekPrecedence ≤ prec + 1 := by
      intro prec
      right
      simp only [Parser.peekPrecedence, hpeek3, tokenPrecedence_rparen]
      omega
    have hright : parseExpression (g + 2) p.nextToken.nextToken PREFIX =
        some (reparsed r, p3) :=
      parseExpression_stop g PREFIX _ p3 _ pf hpf hrun (hstop3 5)
    -- the prefix expression inside the parentheses
    have hpfn : prefixParseFns p.nextToken.curToken.Typ = some parsePrefixExpression := by
      rw [hcur1]
      rcases isPrefixOperator_spec op hs.1 with rfl | rfl <;> rfl
    have hinner : parseExpression (g + 3) p.nextToken LOWEST =
        some (Expression.PrefixExpression ⟨op, op⟩ op (reparsed r), p3) := by
      refine parseExpression_stop (g + 1) LOWEST _ p3 _ _ hpfn ?_ (hstop3 0)
      simp only [parsePrefixExpression, hright, hcur1]
    refine ⟨parseGroupedExpression, p3.nextToken, ⟨RPAREN, ")"⟩, ?_, ?_, ?_, ?_⟩
    · rw [hcur]; rfl
    · exact parseGroupedExpression_ok _ p p3 _ hinner (by rw [hpeek3])
    · exact reads_next _ _ hr3
    · rw [nextToken_errors, herr3]; rfl
  | InfixExpression tok l op r ihl ihr =>
    intro fuel p rest hfuel hr
    simp only [Supported, Bool.and_eq_true] at hs
    simp only [height] at hfuel
    obtain ⟨g, rfl⟩ : ∃ g, fuel = g + 3 := ⟨fuel - 3, by omega⟩
    simp only [toks, List.cons_append, List.append_assoc, List.nil_append] at hr
    have hcur : p.curToken.Typ = LPAREN := by rw [hr.cur]; rfl
    have hr1 := reads_next _ _ hr
    simp only [List.tail_cons] at hr1
    -- the left operand, by its prefix operation
    obtain ⟨pfl, p2, tl, hpfl, hrunl, hr2, herr2⟩ := ihl hs.1.2 (g + 2) p.nextToken
      (⟨op, op⟩ :: (toks r ++ ⟨RPAREN, ")"⟩ :: rest)) (by omega) hr1
    have hpeek2 : p2.peekToken = ⟨op, op⟩ := hr2.peek
    have hr3 := reads_next _ _ (reads_next _ _ hr2)
    simp only [List.tail_cons] at hr3
    -- the right operand, at the operator's level
    obtain ⟨pfr, p4, tr, hpfr, hrunr, hr4, herr4⟩ := ihr hs.2 (g + 1) p2.nextToken.nextToken
      (⟨RPAREN, ")"⟩ :: rest) (by omega) hr3
    have hpeek4 : p4.peekToken = ⟨RPAREN, ")"⟩ := hr4.peek
    have hstop4 : ∀ prec, p4.peekToken.Typ = SEMICOLON ∨ p4.peekPrecedence ≤ prec + 1 := by
      intro prec
      right
      simp only [Parser.peekPrecedence, hpeek4, tokenPrecedence_rparen]
      omega
    obtain ⟨hlow, _, _⟩ := infix_operator_precedence op hs.1.1
    obtain ⟨k, hk⟩ : ∃ k, tokenPrecedence op = k + 1 := ⟨tokenPrecedence op - 1, by omega⟩
    have hright : parseExpression (g + 2) p2.nextToken.nextToken (tokenPrecedence op) =
        some (reparsed r, p4) := by
      rw [hk]
      exact parseExpression_stop g (k + 1) _ p4 _ pfr hpfr hrunr (hstop4 k)
    -- the infix loop: one operator, then the closing parenthesis
    have hinner : parseExpression (g + 3) p.nextToken LOWEST =
        some (Expression.InfixExpression ⟨op, op⟩ (reparsed l) op (reparsed r), p4) := by
      rw [parseExpression_of_prefixFn (g + 2) LOWEST _ p2 _ pfl hpfl hrunl]
      rw [infixLoop_step _ _ _ _ _ (by rw [hpeek2]; exact hs.1.1) (by rw [hpeek2]; exact hlow)]
      simp only [hpeek2, hright]
      exact infixLoop_stop _ _ _ _ _ (hstop4 0)
    refine ⟨parseGroupedExpression, p4.nextToken, ⟨RPAREN, ")"⟩, ?_, ?_, ?_, ?_⟩
    · rw [hcur]; rfl
    · exact parseGroupedExpression_ok _ p p4 _ hinner (by rw [hpeek4])
    · exact reads_next _ _ hr4
    · rw [nextToken_errors, herr4, nextToken_errors, nextToken_errors, herr2]; rfl

/-! ## Whole programs -/

/-- A source text whose single statement is an expression statement: when the
expression parse from the initial parser state succeeds and leaves the parser
on the last token of the input, the program is that one statement. -/
theorem parseSource_expression (s : String) (e : Expression) (p1 : Parser)
    (h1 : (Parser.New (Lexer.New s)).curToken.Typ ≠ EOF)
    (h2 : (Parser.New (Lexer.New s)).curToken.Typ ≠ LET)
    (h3 : (Parser.New (Lexer.New s)).curToken.Typ ≠ RETURN)
    (hparse : parseExpression ((Parser.New (Lexer.New s)).l.length + 3)
      (Parser.New (Lexer.New s)) LOWEST = some (e, p1))
    (hpeek : p1.peekToken = eofToken) :
    parseSource s =
      some (⟨[Statement.ExpressionStatement (Parser.New (Lexer.New s)).curToken e]⟩,
        p1.errors) := by
  have hskip : p1.skipSemicolon = p1 := by
    simp only [Parser.skipSemicolon, hpeek]
    rw [if_neg (by decide)]
  have hcur : p1.nextToken.curToken.Typ = EOF := by
    rw [nextToken_curToken, hpeek]
    rfl
  simp only [parseSource, Parser.ParseProgram, Parser.Errors]
  simp only [parseProgramLoop, if_neg h1, parseStatement, if_neg h2, if_neg h3,
    parseExpressionStatement, hparse, hskip, if_pos hcur]
  simp [nextToken_errors]

theorem toks_length (e : Expression) (hs : Supported e = true) :
    2 * height e + 1 ≤ (toks e).length := by
  induction e with
  | nil => simp [Supported] at hs
  | nilPointer k => simp [Supported] at hs
  | Identifier i => simp [height, toks]
  | IntegerLiteral tok v => simp [height, toks]
  | BooleanLiteral tok v => simp [height, toks]
  | PrefixExpression tok op r ih =>
    simp only [Supported, Bool.and_eq_true] at hs
    have := ih hs.2
    simp only [height, toks, List.length_cons, List.length_append, List.length_nil]
    omega
  | InfixExpression tok l op r ihl ihr =>
    simp only [Supported, Bool.and_eq_true] at hs
    have := ihl hs.1.2
    have := ihr hs.2
    simp only [height, toks, List.length_cons, List.length_append, List.length_nil]
    omega

theorem toks_head (e : Expression) (hs : Supported e = true) :
    ∃ t ts, toks e = t :: ts ∧ t.Typ ≠ EOF ∧ t.Typ ≠ LET ∧ t.Typ ≠ RETURN := by
  cases e with
  | nil => simp [Supported] at hs
  | nilPointer k => simp [Supported] at hs
  | Identifier i =>
    exact ⟨_, _, rfl, by show IDENT ≠ EOF; decide, by show IDENT ≠ LET; decide,
      by show IDENT ≠ RETURN; decide⟩
  | IntegerLiteral tok v =>
    exact ⟨_, _, rfl, by show INT ≠ EOF; decide, by show INT ≠ LET; decide,
      by show INT ≠ RETURN; decide⟩
  | BooleanLiteral tok v =>
    simp only [Supported, decide_eq_true_eq] at hs
    refine ⟨_, _, rfl, ?_⟩
    rcases hs with h | h <;> rw [h] <;> decide
  | PrefixExpression tok op r => exact ⟨_, _, rfl, by decide, by decide, by decide⟩
  | InfixExpression tok l op r => exact ⟨_, _, rfl, by decide, by decide, by decide⟩

/-- Parsing the rendering of a supported tree yields one expression statement
holding the reparsed tree, and no error. -/
theorem parseSource_chars (e : Expression) (hs : Supported e = true) :
    ∃ tok, parseSource (String.mk (chars e)) =
      some (⟨[Statement.ExpressionStatement tok (reparsed e)]⟩, []) := by
  have hgen : Gen (chars e ++ []) (toks e ++ []) :=
    gen_chars e [] [] hs delim_nil gen_nil_nil
  simp only [List.append_nil] at hgen
  obtain ⟨hreads, herr⟩ := reads_new (chars e) (toks e) hgen
  obtain ⟨t, ts, htoks, ht1, ht2, ht3⟩ := toks_head e hs
  have hcur : (Parser.New (chars e)).curToken = t := by
    rw [hreads.cur, htoks]
    rfl
  have hlen := gen_length _ _ hreads.rest
  have hfuel := toks_length e hs
  simp only [List.length_tail] at hlen
  obtain ⟨g, hg⟩ : ∃ g, (Parser.New (chars e)).l.length + 3 = g + 2 := ⟨_, rfl⟩
  have hreads1 : Reads (Parser.New (chars e)) (toks e ++ []) := by
    simpa using hreads
  obtain ⟨pf, p1, t1, hpf, hrun, hr1, herr1⟩ := prefixFn_canon e hs (g + 1)
    (Parser.New (chars e)) [] (by omega) hreads1
  have hpeek : p1.peekToken = eofToken := hr1.peek
  have hparse : parseExpression ((Parser.New (Lexer.New (String.mk (chars e)))).l.length + 3)
      (Parser.New (Lexer.New (String.mk (chars e)))) LOWEST = some (reparsed e, p1) := by
    show parseExpression ((Parser.New (chars e)).l.length + 3) (Parser.New (chars e)) LOWEST = _
    rw [hg]
    exact parseExpression_stop g LOWEST _ p1 _ pf hpf hrun
      (Or.inr (by simp only [Parser.peekPrecedence, hpeek, tokenPrecedence_eof]; decide))
  refine ⟨(Parser.New (chars e)).curToken, ?_⟩
  rw [parseSource_expression _ (reparsed e) p1 (by rw [show Lexer.New (String.mk (chars e)) = chars e from rfl, hcur]; exact ht1)
    (by rw [show Lexer.New (String.mk (chars e)) = chars e from rfl, hcur]; exact ht2)
    (by rw [show Lexer.New (String.mk (chars e)) = chars e from rfl, hcur]; exact ht3)
    hparse hpeek]
  rw [herr1, herr]
  rfl

/-- C6: for every supported tree, lexing and parsing its `String()` records no
error and yields a program whose `String()` is that same text. -/
theorem canonical_string_fixed_point (e : Expression) (hs : Supported e = true) :
    ∃ (s : String) (program : Program), e.String = some s ∧
      parseSource s = some (program, []) ∧ program.String = some s := by
  obtain ⟨tok, hparse⟩ := parseSource_chars e hs
  refine ⟨String.mk (chars e), _, string_eq_chars e hs, hparse, ?_⟩
  simp only [Program.String, writeStatements, Statement.String]
  rw [if_pos (reparsed_ne_nil e hs), reparsed_string, string_eq_chars e hs]
  simp

theorem canonical_string_fixed_point_witness :
    ∃ (s : String) (program : Program),
      (Expression.InfixExpression ⟨ILLEGAL, "?"⟩
        (Expression.PrefixExpression ⟨BANG, "!"⟩ "-" (Expression.Identifier ⟨⟨LET, "let"⟩, "a"⟩))
        "*" (Expression.IntegerLiteral ⟨INT, "05"⟩ 7)).String = some s ∧
      parseSource s = some (program, []) ∧ program.String = some s :=
  canonical_string_fixed_point _ (by decide)

/-! ## Precedence and associativity of infix operators -/

theorem gen_ident (a : String) (rest : List Char) (ts : List Token)
    (ha : isIdentName a = true) (hd : Delim rest) (hg : Gen rest ts) :
    Gen (a.data ++ rest) (⟨IDENT, a⟩ :: ts) :=
  gen_chars (Expression.Identifier ⟨⟨IDENT, a⟩, a⟩) rest ts ha hd hg

theorem gen_infix_operator (op : String) (rest : List Char) (ts : List Token)
    (hop : isInfixOperator op = true) (hg : Gen rest ts) :
    Gen (' ' :: (op.data ++ ' ' :: rest)) (⟨op, op⟩ :: ts) :=
  gen_space _ _ (gen_cons _ _ _ _ (nextToken_infix_operator op rest hop)
    (infix_operator_ne_eof op hop) (gen_space _ _ hg))

theorem parseExpression_ident (f prec : Nat) (p : Parser) (a : String) (rest : List Token)
    (hr : Reads p (⟨IDENT, a⟩ :: rest)) :
    parseExpression (f + 1) p prec =
      infixLoop (parseExpression f) prec f (Expression.Identifier ⟨⟨IDENT, a⟩, a⟩) p := by
  have hcur : p.curToken = ⟨IDENT, a⟩ := hr.cur
  refine parseExpression_of_prefixFn f prec p p _ (fun _ q => parseIdentifier q) ?_ ?_
  · rw [hcur]; rfl
  · simp [parseIdentifier, hcur]

/-- The Pratt loop on `a op1 b op2 c`: the second operator is absorbed into
the right operand of the first exactly when its precedence is strictly
higher. -/
theorem parseExpression_threeOperands (f : Nat) (p : Parser) (a op1 b op2 c : String)
    (h1 : isInfixOperator op1 = true) (h2 : isInfixOperator op2 = true)
    (hr : Reads p [⟨IDENT, a⟩, ⟨op1, op1⟩, ⟨IDENT, b⟩, ⟨op2, op2⟩, ⟨IDENT, c⟩]) :
    ∃ p1, p1.errors = p.errors ∧ p1.peekToken = eofToken ∧
      parseExpression (f + 4) p LOWEST = some
        (if tokenPrecedence op1 < tokenPrecedence op2 then
          Expression.InfixExpression ⟨op1, op1⟩ (Expression.Identifier ⟨⟨IDENT, a⟩, a⟩) op1
            (Expression.InfixExpression ⟨op2, op2⟩ (Expression.Identifier ⟨⟨IDENT, b⟩, b⟩) op2
              (Expression.Identifier ⟨⟨IDENT, c⟩, c⟩))
        else
          Expression.InfixExpression ⟨op2, op2⟩
            (Expression.InfixExpression ⟨op1, op1⟩ (Expression.Identifier ⟨⟨IDENT, a⟩, a⟩) op1
              (Expression.Identifier ⟨⟨IDENT, b⟩, b⟩)) op2
            (Expression.Identifier ⟨⟨IDENT, c⟩, c⟩), p1) := by
  obtain ⟨hlow1, _, _⟩ := infix_operator_precedence op1 h1
  obtain ⟨hlow2, _, _⟩ := infix_operator_precedence op2 h2
  have hr2 := reads_next _ _ (reads_next _ _ hr)
  have hr4 := reads_next _ _ (reads_next _ _ hr2)
  simp only [List.tail_cons] at hr2 hr4
  have hpeek0 : p.peekToken = ⟨op1, op1⟩ := hr.peek
  have hpeek2 : p.nextToken.nextToken.peekToken = ⟨op2, op2⟩ := hr2.peek
  have hpeek4 : p.nextToken.nextToken.nextToken.nextToken.peekToken = eofToken := hr4.peek
  have hstop4 : ∀ prec, 1 ≤ prec →
      (p.nextToken.nextToken.nextToken.nextToken.peekToken.Typ = SEMICOLON ∨
        p.nextToken.nextToken.nextToken.nextToken.peekPrecedence ≤ prec) := by
    intro prec hprec
    right
    simp only [Parser.peekPrecedence, hpeek4, tokenPrecedence_eof]
    exact hprec
  -- the last operand, at any level
  have hc : ∀ g prec, 1 ≤ prec →
      parseExpression (g + 2) p.nextToken.nextToken.nextToken.nextToken prec =
        some (Expression.Identifier ⟨⟨IDENT, c⟩, c⟩,
          p.nextToken.nextToken.nextToken.nextToken) := by
    intro g prec hprec
    rw [parseExpression_ident (g + 1) prec _ c [] hr4]
    exact infixLoop_stop _ _ _ _ _ (hstop4 prec hprec)
  refine ⟨p.nextToken.nextToken.nextToken.nextToken, rfl, hpeek4, ?_⟩
  rw [parseExpression_ident (f + 3) LOWEST p a _ hr]
  rw [infixLoop_step _ _ _ _ _ (by rw [hpeek0]; exact h1) (by rw [hpeek0]; exact hlow1)]
  simp only [hpeek0]
  rw [parseExpression_ident (f + 2) (tokenPrecedence op1) _ b _ hr2]
  by_cases hlt : tokenPrecedence op1 < tokenPrecedence op2
  · rw [if_pos hlt]
    rw [infixLoop_step _ _ _ _ _ (by rw [hpeek2]; exact h2) (by rw [hpeek2]; exact hlt)]
    simp only [hpeek2, hc f (tokenPrecedence op2) (by omega)]
    rw [infixLoop_stop _ _ _ _ _ (hstop4 _ (by omega))]
    exact infixLoop_stop _ _ _ _ _ (hstop4 _ (by decide))
  · rw [if_neg hlt]
    rw [infixLoop_stop _ _ _ _ _ (Or.inr (by
      simp only [Parser.peekPrecedence, hpeek2]; omega))]
    simp only []
    rw [infixLoop_step _ _ _ _ _ (by rw [hpeek2]; exact h2) (by rw [hpeek2]; exact hlow2)]
    simp only [hpeek2, hc (f + 1) (tokenPrecedence op2) (by omega)]
    exact infixLoop_stop _ _ _ _ _ (hstop4 _ (by decide))

theorem threeOperands_data (a op1 b op2 c : String) :
    (threeOperands a op1 b op2 c).data =
      a.data ++ ' ' :: (op1.data ++ ' ' :: (b.data ++ ' ' :: (op2.data ++ ' ' :: (c.data ++ [])))) := by
  simp [threeOperands]

theorem gen_threeOperands (a op1 b op2 c : String)
    (ha : isIdentName a = true) (hb : isIdentName b = true) (hc : isIdentName c = true)
    (h1 : isInfixOperator op1 = true) (h2 : isInfixOperator op2 = true) :
    Gen (threeOperands a op1 b op2 c).data
      [⟨IDENT, a⟩, ⟨op1, op1⟩, ⟨IDENT, b⟩, ⟨op2, op2⟩, ⟨IDENT, c⟩] := by
  rw [threeOperands_data]
  have g5 := gen_ident c [] [] hc delim_nil gen_nil_nil
  have g4 := gen_infix_operator op2 _ _ h2 g5
  have g3 := gen_ident b _ _ hb (delim_space _) g4
  have g2 := gen_infix_operator op1 _ _ h1 g3
  exact gen_ident a _ _ ha (delim_space _) g2

/-- C5: on the text `a op1 b op2 c` (identifiers `a`, `b`, `c`, infix
operators `op1`, `op2`) lexing and parsing record no error and yield a program
rendering as `((a op1 b) op2 c)` when the precedence of `op2` is not higher
than that of `op1`, and as `(a op1 (b op2 c))` when it is strictly higher; the
levels are `==`,`!=` EQUALS < `<`,`>` LESSGREATER < `+`,`-` SUM < `*`,`/`
PRODUCT. -/
theorem infix_left_assoc_by_precedence (a op1 b op2 c : String)
    (ha : isIdentName a = true) (hb : isIdentName b = true) (hc : isIdentName c = true)
    (h1 : isInfixOperator op1 = true) (h2 : isInfixOperator op2 = true) :
    (tokenPrecedence "==" = EQUALS ∧ tokenPrecedence "!=" = EQUALS ∧
      tokenPrecedence "<" = LESSGREATER ∧ tokenPrecedence ">" = LESSGREATER ∧
      tokenPrecedence "+" = SUM ∧ tokenPrecedence "-" = SUM ∧
      tokenPrecedence "*" = PRODUCT ∧ tokenPrecedence "/" = PRODUCT ∧
      EQUALS < LESSGREATER ∧ LESSGREATER < SUM ∧ SUM < PRODUCT) ∧
    ∃ program : Program,
      parseSource (threeOperands a op1 b op2 c) = some (program, []) ∧
      (tokenPrecedence op2 ≤ tokenPrecedence op1 →
        program.String =
          some ("((" ++ a ++ " " ++ op1 ++ " " ++ b ++ ") " ++ op2 ++ " " ++ c ++ ")")) ∧
      (tokenPrecedence op1 < tokenPrecedence op2 →
        program.String =
          some ("(" ++ a ++ " " ++ op1 ++ " (" ++ b ++ " " ++ op2 ++ " " ++ c ++ "))")) := by
  refine ⟨by decide, ?_⟩
  have hgen : Gen (Lexer.New (threeOperands a op1 b op2 c))
      [⟨IDENT, a⟩, ⟨op1, op1⟩, ⟨IDENT, b⟩, ⟨op2, op2⟩, ⟨IDENT, c⟩] :=
    gen_threeOperands a op1 b op2 c ha hb hc h1 h2
  obtain ⟨hreads, herr⟩ := reads_new _ _ hgen
  have hcur : (Parser.New (Lexer.New (threeOperands a op1 b op2 c))).curToken = ⟨IDENT, a⟩ :=
    hreads.cur
  have hlen := gen_length _ _ hreads.rest
  simp only [List.tail_cons, List.length_cons, List.length_nil] at hlen
  obtain ⟨g, hg⟩ : ∃ g,
      (Parser.New (Lexer.New (threeOperands a op1 b op2 c))).l.length + 3 = g + 4 :=
    ⟨(Parser.New (Lexer.New (threeOperands a op1 b op2 c))).l.length - 1, by omega⟩
  obtain ⟨p1, herr1, hpeek1, hparse⟩ :=
    parseExpression_threeOperands g _ a op1 b op2 c h1 h2 hreads
  rw [← hg] at hparse
  have hsrc := parseSource_expression _ _ p1 (by rw [hcur]; show IDENT ≠ EOF; decide)
    (by rw [hcur]; show IDENT ≠ LET; decide) (by rw [hcur]; show IDENT ≠ RETURN; decide)
    hparse hpeek1
  rw [herr1, herr] at hsrc
  refine ⟨_, hsrc, ?_, ?_⟩
  · intro hle
    rw [if_neg (by omega)]
    simp [Program.String, writeStatements, Statement.String, Expression.String,
      Identifier.String, String.ext_iff]
  · intro hlt
    rw [if_pos hlt]
    simp [Program.String, writeStatements, Statement.String, Expression.String,
      Identifier.String, String.ext_iff]

theorem infix_left_assoc_by_precedence_witness :
    (∃ program : Program,
      parseSource (threeOperands "a" "+" "b" "*" "c") = some (program, []) ∧
      program.String = some "(a + (b * c))") ∧
    (∃ program : Program,
      parseSource (threeOperands "a" "*" "b" "+" "c") = some (program, []) ∧
      program.String = some "((a * b) + c)") ∧
    (∃ program : Program,
      parseSource (threeOperands "a" "-" "b" "+" "c") = some (program, []) ∧
      program.String = some "((a - b) + c)") :=
  ⟨(infix_left_assoc_by_precedence "a" "+" "b" "*" "c" (by decide) (by decide) (by decide)
      (by decide) (by decide)).2.imp fun _ h => ⟨h.1, h.2.2 (by decide)⟩,
   (infix_left_assoc_by_precedence "a" "*" "b" "+" "c" (by decide) (by decide) (by decide)
      (by decide) (by decide)).2.imp fun _ h => ⟨h.1, h.2.1 (by decide)⟩,
   (infix_left_assoc_by_precedence "a" "-" "b" "+" "c" (by decide) (by decide) (by decide)
      (by decide) (by decide)).2.imp fun _ h => ⟨h.1, h.2.1 (by decide)⟩⟩

/-! ## Sequences of let statements -/

theorem letLine_data (ident literal : String) (rest : List Char) :
    (letLine ident literal).data ++ rest =
      'l' :: ['e', 't'] ++ ' ' :: (ident.data ++ ' ' :: '=' :: ' ' ::
        (literal.data ++ ';' :: '\n' :: rest)) := by
  simp [letLine]

theorem gen_letLine (pair : String × String) (rest : List Char) (ts : List Token)
    (hi : isIdentName pair.1 = true) (hl : isIntLexeme pair.2 = true) (hg : Gen rest ts) :
    Gen ((letLine pair.1 pair.2).data ++ rest) (letTokens pair ++ ts) := by
  obtain ⟨⟨c, cs, hc, _⟩, hall⟩ := isIntLexeme_spec pair.2 hl
  have hlit : pair.2 = String.mk (c :: cs) := String.ext hc
  rw [hc] at hall
  have g5 : Gen (';' :: '\n' :: rest) (⟨SEMICOLON, ";"⟩ :: ts) :=
    gen_cons _ _ _ _ (nextToken_semicolon _) (by decide) (gen_newline _ _ hg)
  have g4 : Gen (pair.2.data ++ ';' :: '\n' :: rest)
      (⟨INT, pair.2⟩ :: ⟨SEMICOLON, ";"⟩ :: ts) := by
    refine gen_cons _ (';' :: '\n' :: rest) _ _ ?_ (by show INT ≠ EOF; decide) g5
    rw [hc, nextToken_digits c cs _ hall (by intro a ha; simp at ha; subst ha; decide), ← hlit]
  have g3 : Gen ('=' :: ' ' :: (pair.2.data ++ ';' :: '\n' :: rest))
      (⟨ASSIGN, "="⟩ :: ⟨INT, pair.2⟩ :: ⟨SEMICOLON, ";"⟩ :: ts) :=
    gen_cons _ _ _ _ (nextToken_assign_space _) (by decide) (gen_space _ _ g4)
  have g2 := gen_ident pair.1 _ _ hi (delim_space _) (gen_space _ _ g3)
  rw [letLine_data]
  refine gen_cons _ _ _ _ (nextToken_letters 'l' ['e', 't'] _ (by decide)
    (by intro a ha; simp at ha; subst ha; decide)) (by decide) (gen_space _ _ g2)

theorem gen_letSource (lines : List (String × String))
    (h : ∀ pair ∈ lines, isIdentName pair.1 = true ∧ isIntLexeme pair.2 = true) :
    Gen (letSource lines).data (letSourceTokens lines) := by
  induction lines with
  | nil => exact gen_nil_nil
  | cons pair rest ih =>
    have hp := h pair (by simp)
    have hrest := ih (fun q hq => h q (by simp [hq]))
    have := gen_letLine pair _ _ hp.1 hp.2 hrest
    simpa [letSource, letSourceTokens] using this

theorem parseStatement_let (f : Nat) (p : Parser) (pair : String × String)
    (rest : List Token) (hr : Reads p (letTokens pair ++ rest)) :
    ∃ p1, parseStatement (f + 2) p = some (letStatementOf pair, p1) ∧
      Reads p1 (⟨SEMICOLON, ";"⟩ :: rest) ∧ p1.errors = p.errors := by
  simp only [letTokens, List.cons_append, List.nil_append] at hr
  have hr1 := reads_next _ _ hr
  have hr2 := reads_next _ _ hr1
  have hr3 := reads_next _ _ hr2
  have hr4 := reads_next _ _ hr3
  simp only [List.tail_cons] at hr1 hr2 hr3 hr4
  have hcur : p.curToken = ⟨LET, "let"⟩ := hr.cur
  have hpeek : p.peekToken = ⟨IDENT, pair.1⟩ := hr.peek
  have hcur1 : p.nextToken.curToken = ⟨IDENT, pair.1⟩ := hr1.cur
  have hpeek1 : p.nextToken.peekToken = ⟨ASSIGN, "="⟩ := hr1.peek
  have hcur3 : p.nextToken.nextToken.nextToken.curToken = ⟨INT, pair.2⟩ := hr3.cur
  have hpeek3 : p.nextToken.nextToken.nextToken.peekToken = ⟨SEMICOLON, ";"⟩ := hr3.peek
  have hvalue : parseExpression (f + 2) p.nextToken.nextToken.nextToken LOWEST =
      some (Expression.IntegerLiteral ⟨INT, pair.2⟩ (decimalValue pair.2),
        p.nextToken.nextToken.nextToken) := by
    refine parseExpression_stop f LOWEST _ _ _ (fun _ q => parseIntegerLiteral q) ?_ ?_
      (Or.inl (by rw [hpeek3]))
    · rw [hcur3]; rfl
    · simp [parseIntegerLiteral, hcur3]
  refine ⟨p.nextToken.nextToken.nextToken.nextToken, ?_, hr4, rfl⟩
  have hlet : p.curToken.Typ = LET := by rw [hcur]
  simp only [parseStatement, if_pos hlet, parseLetStatement, Parser.expectPeek, hpeek, hpeek1,
    if_true, hvalue, Parser.skipSemicolon, hpeek3, hcur, hcur1, letStatementOf]

theorem parseProgramLoop_lets (lines : List (String × String)) :
    ∀ (n f : Nat) (p : Parser) (acc : List Statement), lines.length < n →
      Reads p (letSourceTokens lines) →
      ∃ p1, parseProgramLoop n (f + 2) p acc =
          some (acc ++ lines.map letStatementOf, p1) ∧ p1.errors = p.errors := by
  induction lines with
  | nil =>
    intro n f p acc hn hr
    obtain ⟨m, rfl⟩ : ∃ m, n = m + 1 := ⟨n - 1, by omega⟩
    have hcur : p.curToken.Typ = EOF := by rw [hr.cur]; rfl
    exact ⟨p, by simp [parseProgramLoop, hcur], rfl⟩
  | cons pair rest ih =>
    intro n f p acc hn hr
    simp only [List.length_cons] at hn
    obtain ⟨m, rfl⟩ : ∃ m, n = m + 1 := ⟨n - 1, by omega⟩
    simp only [letSourceTokens] at hr
    have hcur : p.curToken.Typ ≠ EOF := by
      rw [hr.cur]
      show LET ≠ EOF
      decide
    obtain ⟨p1, hstmt, hr1, herr1⟩ := parseStatement_let f p pair _ hr
    have hr2 := reads_next _ _ hr1
    simp only [List.tail_cons] at hr2
    obtain ⟨p2, hloop, herr2⟩ := ih m f p1.nextToken (acc ++ [letStatementOf pair])
      (by omega) hr2
    refine ⟨p2, ?_, by rw [herr2, nextToken_errors, herr1]⟩
    simp only [parseProgramLoop, if_neg hcur, hstmt]
    rw [if_pos (by simp [letStatementOf]), hloop]
    simp

theorem letSourceTokens_length (lines : List (String × String)) :
    (letSourceTokens lines).length = 5 * lines.length := by
  induction lines with
  | nil => rfl
  | cons pair rest ih =>
    simp only [letSourceTokens, letTokens, List.length_append, List.length_cons,
      List.length_nil, ih]
    omega

/-- Parsing a `let` source text yields exactly the statements of its lines,
in order, and no error. -/
theorem parseSource_letSource (lines : List (String × String))
    (h : ∀ pair ∈ lines, isIdentName pair.1 = true ∧ isIntLexeme pair.2 = true) :
    parseSource (letSource lines) = some (⟨lines.map letStatementOf⟩, []) := by
  have hgen : Gen (Lexer.New (letSource lines)) (letSourceTokens lines) :=
    gen_letSource lines h
  obtain ⟨hreads, herr⟩ := reads_new _ _ hgen
  have hlen := gen_length _ _ hreads.rest
  simp only [List.length_tail, letSourceTokens_length] at hlen
  obtain ⟨g, hg⟩ : ∃ g, (Parser.New (Lexer.New (letSource lines))).l.length + 3 = g + 2 :=
    ⟨_, rfl⟩
  obtain ⟨p1, hloop, herr1⟩ := parseProgramLoop_lets lines
    ((Parser.New (Lexer.New (letSource lines))).l.length + 3) g _ [] (by omega) hreads
  rw [← hg] at hloop
  simp only [parseSource, Parser.ParseProgram, hloop, Parser.Errors, herr1, herr,
    List.nil_append]

/-- C10: for every sequence of pairs (identifier, integer literal), lexing and
parsing the text with one line `let <ident> = <intLiteral>;` per pair records
no error and yields one statement per line, in source order, the k-th being a
`LetStatement` with `TokenLiteral() == "let"` and `Name.Value ==
Name.TokenLiteral() ==` the k-th identifier. -/
theorem let_statements_parse (lines : List (String × String))
    (h : ∀ pair ∈ lines, isIdentName pair.1 = true ∧ isIntLexeme pair.2 = true) :
    ∃ program : Program,
      parseSource (letSource lines) = some (program, []) ∧
      program.Statements.length = lines.length ∧
      ∀ (k : Nat) (pair : String × String), lines[k]? = some pair →
        ∃ tok name value,
          program.Statements[k]? = some (Statement.LetStatement tok name value) ∧
          (Statement.LetStatement tok name value).TokenLiteral = some "let" ∧
          name.Value = pair.1 ∧ name.TokenLiteral = pair.1 := by
  refine ⟨⟨lines.map letStatementOf⟩, parseSource_letSource lines h, by simp, ?_⟩
  intro k pair hk
  refine ⟨⟨LET, "let"⟩, ⟨⟨IDENT, pair.1⟩, pair.1⟩,
    Expression.IntegerLiteral ⟨INT, pair.2⟩ (decimalValue pair.2), ?_, rfl, rfl, rfl⟩
  simp [List.getElem?_map, hk, letStatementOf]

theorem let_statements_parse_witness :
    ∃ program : Program,
      parseSource (letSource [("x", "5"), ("y", "10"), ("foobar", "838383")]) =
        some (program, []) ∧
      program.Statements.length = [("x", "5"), ("y", "10"), ("foobar", "838383")].length ∧
      ∀ (k : Nat) (pair : String × String),
        [("x", "5"), ("y", "10"), ("foobar", "838383")][k]? = some pair →
        ∃ tok name value,
          program.Statements[k]? = some (Statement.LetStatement tok name value) ∧
          (Statement.LetStatement tok name value).TokenLiteral = some "let" ∧
          name.Value = pair.1 ∧ name.TokenLiteral = pair.1 :=
  let_statements_parse [("x", "5"), ("y", "10"), ("foobar", "838383")] (by decide)

/-! ## Token literals, absent operands and the keyword table -/

/-- C12: `TokenLiteral()` of every node variant is the lexeme of the node's
token, whatever the other fields hold. -/
theorem tokenLiteral_is_token_lexeme (tok : Token) :
    (∀ (name : Identifier) (value : Expression),
      (Statement.LetStatement tok name value).TokenLiteral = some tok.Literal) ∧
    (∀ value : Expression,
      (Statement.ReturnStatement tok value).TokenLiteral = some tok.Literal) ∧
    (∀ e : Expression,
      (Statement.ExpressionStatement tok e).TokenLiteral = some tok.Literal) ∧
    (∀ value : String, Identifier.TokenLiteral ⟨tok, value⟩ = tok.Literal ∧
      (Expression.Identifier ⟨tok, value⟩).TokenLiteral = some tok.Literal) ∧
    (∀ value : Int, (Expression.IntegerLiteral tok value).TokenLiteral = some tok.Literal) ∧
    (∀ value : Bool, (Expression.BooleanLiteral tok value).TokenLiteral = some tok.Literal) ∧
    (∀ (op : String) (right : Expression),
      (Expression.PrefixExpression tok op right).TokenLiteral = some tok.Literal) ∧
    (∀ (left : Expression) (op : String) (right : Expression),
      (Expression.InfixExpression tok left op right).TokenLiteral = some tok.Literal) :=
  ⟨fun _ _ => rfl, fun _ => rfl, fun _ => rfl, fun _ => ⟨rfl, rfl⟩, fun _ => rfl,
    fun _ => rfl, fun _ _ => rfl, fun _ _ _ => rfl⟩

/-- C14: parsing the empty source string yields no statement and no error. -/
theorem parse_empty_source : parseSource "" = some (⟨[]⟩, []) := by
  decide

theorem string_isSome_iff_operandsHeld (e : Expression) :
    e.String.isSome = operandsHeld e := by
  induction e with
  | nil => rfl
  | nilPointer k => rfl
  | Identifier i => rfl
  | IntegerLiteral tok v => rfl
  | BooleanLiteral tok v => rfl
  | PrefixExpression tok op r ih =>
    simp only [Expression.String, operandsHeld, ← ih]
    cases r.String <;> rfl
  | InfixExpression tok l op r ihl ihr =>
    simp only [Expression.String, operandsHeld, ← ihl, ← ihr]
    cases l.String <;> cases r.String <;> rfl

theorem operandsPresent_of_operandsHeld (e : Expression) (h : operandsHeld e = true) :
    operandsPresent e = true := by
  induction e with
  | nil => simp [operandsHeld] at h
  | nilPointer k => rfl
  | Identifier i => rfl
  | IntegerLiteral tok v => rfl
  | BooleanLiteral tok v => rfl
  | PrefixExpression tok op r ih => exact ih h
  | InfixExpression tok l op r ihl ihr =>
    simp only [operandsHeld, Bool.and_eq_true] at h
    simp only [operandsPresent, Bool.and_eq_true]
    exact ⟨ihl h.1, ihr h.2⟩

/-- C15 as stated fails: the pointer types implement `ast.Expression` too, and
a `PrefixExpression` whose `Right` is a nil `*Identifier` has every operand
present (`Right != nil` holds), yet its `String()` fails. -/
theorem string_fails_on_present_nil_pointer :
    Expression.nilPointer ExpressionStruct.Identifier ≠ Expression.nil ∧
    operandsPresent (Expression.PrefixExpression ⟨MINUS, "-"⟩ "-"
      (Expression.nilPointer ExpressionStruct.Identifier)) = true ∧
    (Expression.PrefixExpression ⟨MINUS, "-"⟩ "-"
      (Expression.nilPointer ExpressionStruct.Identifier)).String = none := by
  decide

/-- C15 (amended): `String()` on an expression tree returns exactly when the
expression and every operand below it, at every depth, is a node, neither
absent nor a nil pointer; it fails on any tree with an absent operand and on
a `PrefixExpression` or `InfixExpression` whose operand is absent or a nil
pointer, whereas a `LetStatement`, `ReturnStatement` or `ExpressionStatement`
whose own `Value`/`Expression` is absent still renders. -/
theorem string_returns_iff_operands_held :
    (∀ e : Expression, e.String.isSome = operandsHeld e) ∧
    (∀ e : Expression, operandsPresent e = false → e.String = none) ∧
    (∀ (tok : Token) (op : String),
      (Expression.PrefixExpression tok op Expression.nil).String = none) ∧
    (∀ (tok : Token) (op : String) (e : Expression),
      (Expression.InfixExpression tok Expression.nil op e).String = none ∧
      (Expression.InfixExpression tok e op Expression.nil).String = none) ∧
    (∀ (tok : Token) (op : String) (target : ExpressionStruct) (e : Expression),
      (Expression.PrefixExpression tok op (Expression.nilPointer target)).String = none ∧
      (Expression.InfixExpression tok (Expression.nilPointer target) op e).String = none ∧
      (Expression.InfixExpression tok e op (Expression.nilPointer target)).String = none) ∧
    (∀ (tok : Token) (name : Identifier),
      (Statement.LetStatement tok name Expression.nil).String =
        some (tok.Literal ++ " " ++ name.String ++ " = ;")) ∧
    (∀ tok : Token,
      (Statement.ReturnStatement tok Expression.nil).String = some (tok.Literal ++ " ;")) ∧
    (∀ tok : Token, (Statement.ExpressionStatement tok Expression.nil).String = some "") := by
  refine ⟨string_isSome_iff_operandsHeld, ?_, fun _ _ => rfl, ?_, ?_, ?_, ?_, ?_⟩
  · intro e he
    cases hs : e.String with
    | none => rfl
    | some s =>
      have h1 : operandsHeld e = true := by
        rw [← string_isSome_iff_operandsHeld, hs]
        rfl
      rw [operandsPresent_of_operandsHeld e h1] at he
      exact Bool.noConfusion he
  · intro tok op e
    constructor
    · rfl
    · simp only [Expression.String]
      cases e.String <;> rfl
  · intro tok op target e
    refine ⟨rfl, rfl, ?_⟩
    simp only [Expression.String]
    cases e.String <;> rfl
  · intro tok name
    simp [Statement.String]
  · intro tok
    simp [Statement.String]
  · intro tok
    simp [Statement.String]

theorem string_returns_iff_operands_held_witness :
    (Expression.InfixExpression ⟨PLUS, "+"⟩ Expression.nil "+"
      (Expression.Identifier ⟨⟨IDENT, "a"⟩, "a"⟩)).String = none :=
  string_returns_iff_operands_held.2.1 _ (by decide)

/-- C16: `Program.String` is not injective on statement sequences: the two
expression statements `a`, `b` and the single expression statement `ab` both
render `"ab"`. -/
theorem program_string_not_injective :
    ∃ p q : Program, p.Statements.length = 2 ∧ q.Statements.length = 1 ∧
      p.String = some "ab" ∧ q.String = some "ab" :=
  ⟨⟨[Statement.ExpressionStatement ⟨IDENT, "a"⟩ (Expression.Identifier ⟨⟨IDENT, "a"⟩, "a"⟩),
      Statement.ExpressionStatement ⟨IDENT, "b"⟩ (Expression.Identifier ⟨⟨IDENT, "b"⟩, "b"⟩)]⟩,
   ⟨[Statement.ExpressionStatement ⟨IDENT, "ab"⟩
      (Expression.Identifier ⟨⟨IDENT, "ab"⟩, "ab"⟩)]⟩,
   rfl, rfl, by decide, by decide⟩

theorem lookupIdent_cases (s : String) :
    (s = "fn" ∧ LookupIdent s = FUNCTION) ∨ (s = "let" ∧ LookupIdent s = LET) ∨
    (s = "if" ∧ LookupIdent s = IF) ∨ (s = "else" ∧ LookupIdent s = ELSE) ∨
    (s = "true" ∧ LookupIdent s = TRUE) ∨ (s = "false" ∧ LookupIdent s = FALSE) ∨
    (s = "return" ∧ LookupIdent s = RETURN) ∨ LookupIdent s = IDENT := by
  by_cases h1 : s = "fn"
  · exact Or.inl ⟨h1, by rw [h1]; rfl⟩
  by_cases h2 : s = "let"
  · exact Or.inr (Or.inl ⟨h2, by rw [h2]; rfl⟩)
  by_cases h3 : s = "if"
  · exact Or.inr (Or.inr (Or.inl ⟨h3, by rw [h3]; rfl⟩))
  by_cases h4 : s = "else"
  · exact Or.inr (Or.inr (Or.inr (Or.inl ⟨h4, by rw [h4]; rfl⟩)))
  by_cases h5 : s = "true"
  · exact Or.inr (Or.inr (Or.inr (Or.inr (Or.inl ⟨h5, by rw [h5]; rfl⟩))))
  by_cases h6 : s = "false"
  · exact Or.inr (Or.inr (Or.inr (Or.inr (Or.inr (Or.inl ⟨h6, by rw [h6]; rfl⟩)))))
  by_cases h7 : s = "return"
  · exact Or.inr (Or.inr (Or.inr (Or.inr (Or.inr (Or.inr (Or.inl ⟨h7, by rw [h7]; rfl⟩))))))
  · refine Or.inr (Or.inr (Or.inr (Or.inr (Or.inr (Or.inr (Or.inr ?_))))))
    simp [LookupIdent, keywords, List.lookup, beq_eq_false_iff_ne.mpr h1,
      beq_eq_false_iff_ne.mpr h2, beq_eq_false_iff_ne.mpr h3, beq_eq_false_iff_ne.mpr h4,
      beq_eq_false_iff_ne.mpr h5, beq_eq_false_iff_ne.mpr h6, beq_eq_false_iff_ne.mpr h7]

/-- C17: every keyword kind has exactly one preimage under `LookupIdent`, and
the lookup is case-sensitive: the upper-case kind names map to `IDENT`. -/
theorem lookupIdent_keyword_preimage :
    (∀ s t : String, LookupIdent s = LookupIdent t → LookupIdent s ≠ IDENT → s = t) ∧
    LookupIdent "FUNCTION" = IDENT ∧ LookupIdent "LET" = IDENT ∧ LookupIdent "IF" = IDENT ∧
    LookupIdent "ELSE" = IDENT ∧ LookupIdent "TRUE" = IDENT ∧ LookupIdent "FALSE" = IDENT ∧
    LookupIdent "RETURN" = IDENT := by
  refine ⟨?_, by decide, by decide, by decide, by decide, by decide, by decide, by decide⟩
  intro s t h hs
  rcases lookupIdent_cases s with
    ⟨h1, k1⟩ | ⟨h1, k1⟩ | ⟨h1, k1⟩ | ⟨h1, k1⟩ | ⟨h1, k1⟩ | ⟨h1, k1⟩ | ⟨h1, k1⟩ | k1 <;>
  rcases lookupIdent_cases t with
    ⟨h2, k2⟩ | ⟨h2, k2⟩ | ⟨h2, k2⟩ | ⟨h2, k2⟩ | ⟨h2, k2⟩ | ⟨h2, k2⟩ | ⟨h2, k2⟩ | k2 <;>
  first
  | exact absurd k1 hs
  | exact h1.trans h2.symm
  | exact absurd (k1.symm.trans (h.trans k2)) (by decide)

theorem lookupIdent_keyword_preimage_witness :
    LookupIdent "return" ≠ IDENT ∧ ("return" : String) = "return" :=
  ⟨by decide, lookupIdent_keyword_preimage.1 "return" "return" rfl (by decide)⟩

/-- C18: `Program.TokenLiteral` is `""` for a program without statements and
otherwise the `TokenLiteral()` of the first statement, whatever follows it. -/
theorem program_tokenLiteral_first :
    Program.TokenLiteral ⟨[]⟩ = some "" ∧
    ∀ (s : Statement) (rest : List Statement),
      Program.TokenLiteral ⟨s :: rest⟩ = s.TokenLiteral :=
  ⟨rfl, fun _ _ => rfl⟩

/-- C19: integer and boolean literals render their token lexeme whatever their
`Value` holds (equal values with lexemes `5` and `05` render differently),
whereas an identifier renders its `Value` and ignores its token lexeme. -/
theorem literal_renders_lexeme :
    (∀ (tok : Token) (value : Int),
      (Expression.IntegerLiteral tok value).String =
        (Expression.IntegerLiteral tok value).TokenLiteral ∧
      (Expression.IntegerLiteral tok value).String = some tok.Literal) ∧
    (∀ (tok : Token) (value : Bool),
      (Expression.BooleanLiteral tok value).String =
        (Expression.BooleanLiteral tok value).TokenLiteral ∧
      (Expression.BooleanLiteral tok value).String = some tok.Literal) ∧
    (Expression.IntegerLiteral ⟨INT, "5"⟩ 5).String ≠
      (Expression.IntegerLiteral ⟨INT, "05"⟩ 5).String ∧
    (∀ (tok : Token) (value : String),
      Identifier.String ⟨tok, value⟩ = value ∧
      (Expression.Identifier ⟨tok, value⟩).String = some value) :=
  ⟨fun _ _ => ⟨rfl, rfl⟩, fun _ _ => ⟨rfl, rfl⟩, by decide, fun _ _ => ⟨rfl, rfl⟩⟩

/-! ## The lexer on sequences of lexemes -/

theorem skipWhitespace_run (ws l : List Char) (h : ∀ c ∈ ws, isWhitespace c = true) :
    skipWhitespace (ws ++ l) = skipWhitespace l := by
  induction ws with
  | nil => rfl
  | cons c cs ih =>
    have hc : isWhitespace c = true := h c (by simp)
    simp only [List.cons_append, skipWhitespace, hc, if_true]
    exact ih (fun a ha => h a (by simp [ha]))

theorem nextToken_congr (a b : Lexer) (h : skipWhitespace a = skipWhitespace b) :
    Lexer.NextToken a = Lexer.NextToken b := by
  simp only [Lexer.NextToken, h]

theorem isSymbolLexeme_spec (s : String) (h : isSymbolLexeme s = true) :
    s = "=" ∨ s = "+" ∨ s = "-" ∨ s = "!" ∨ s = "*" ∨ s = "/" ∨ s = "<" ∨ s = ">" ∨
      s = "," ∨ s = ";" ∨ s = "(" ∨ s = ")" ∨ s = "\x7b" ∨ s = "\x7d" := by
  simpa [isSymbolLexeme] using h

theorem isLetterRun_spec (s : String) (h : isLetterRun s = true) :
    (∃ c cs, s.data = c :: cs ∧ isLetter c = true) ∧ (∀ c ∈ s.data, isLetter c = true) := by
  simp only [isLetterRun, Bool.and_eq_true, Bool.not_eq_true', List.all_eq_true] at h
  obtain ⟨h1, h2⟩ := h
  refine ⟨?_, h2⟩
  cases hd : s.data with
  | nil => simp [hd] at h1
  | cons c cs => exact ⟨c, cs, rfl, h2 c (by simp [hd])⟩

theorem nextToken_symbol (s : String) (rest : List Char) (h : isSymbolLexeme s = true)
    (hrest : s = "=" ∨ s = "!" → rest.head? ≠ some '=') :
    Lexer.NextToken (s.data ++ rest) = (⟨s, s⟩, rest) := by
  rcases isSymbolLexeme_spec s h with
    rfl | rfl | rfl | rfl | rfl | rfl | rfl | rfl | rfl | rfl | rfl | rfl | rfl | rfl
  · have := hrest (Or.inl rfl)
    simp [Lexer.NextToken, skipWhitespace, isWhitespace, isLetter, isDigit, symbolKind, this]
    rfl
  · simp [Lexer.NextToken, skipWhitespace, isWhitespace, isLetter, isDigit, symbolKind]
    rfl
  · simp [Lexer.NextToken, skipWhitespace, isWhitespace, isLetter, isDigit, symbolKind]
    rfl
  · have := hrest (Or.inr rfl)
    simp [Lexer.NextToken, skipWhitespace, isWhitespace, isLetter, isDigit, symbolKind, this]
    rfl
  · simp [Lexer.NextToken, skipWhitespace, isWhitespace, isLetter, isDigit, symbolKind]
    rfl
  · simp [Lexer.NextToken, skipWhitespace, isWhitespace, isLetter, isDigit, symbolKind]
    rfl
  · simp [Lexer.NextToken, skipWhitespace, isWhitespace, isLetter, isDigit, symbolKind]
    rfl
  · simp [Lexer.NextToken, skipWhitespace, isWhitespace, isLetter, isDigit, symbolKind]
    rfl
  · simp [Lexer.NextToken, skipWhitespace, isWhitespace, isLetter, isDigit, symbolKind]
    rfl
  · simp [Lexer.NextToken, skipWhitespace, isWhitespace, isLetter, isDigit, symbolKind]
    rfl
  · simp [Lexer.NextToken, skipWhitespace, isWhitespace, isLetter, isDigit, symbolKind]
    rfl
  · simp [Lexer.NextToken, skipWhitespace, isWhitespace, isLetter, isDigit, symbolKind]
    rfl
  · simp [Lexer.NextToken, skipWhitespace, isWhitespace, isLetter, isDigit, symbolKind]
    rfl
  · simp [Lexer.NextToken, skipWhitespace, isWhitespace, isLetter, isDigit, symbolKind]
    rfl

theorem symbol_not_letterRun (s : String) (h : isSymbolLexeme s = true) :
    isLetterRun s = false ∧ isIntLexeme s = false := by
  rcases isSymbolLexeme_spec s h with
    rfl | rfl | rfl | rfl | rfl | rfl | rfl | rfl | rfl | rfl | rfl | rfl | rfl | rfl <;>
  decide

theorem letterRun_not_intLexeme (s : String) (h : isLetterRun s = true) :
    isIntLexeme s = false := by
  obtain ⟨⟨c, cs, hc, hl⟩, _⟩ := isLetterRun_spec s h
  cases hi : isIntLexeme s with
  | false => rfl
  | true =>
    have hd := (isIntLexeme_spec s hi).2 c (by simp [hc])
    rw [isLetter_not_isDigit c hl] at hd
    exact Bool.noConfusion hd

/-- What may follow a lexeme without changing how the lexer reads it. -/
theorem nextToken_lexeme (ws lexeme : String) (rest : List Char)
    (hws : isWhitespaceRun ws = true) (hlex : isLexeme lexeme = true)
    (h1 : isLetterRun lexeme = true → ∀ c ∈ rest.head?, isLetter c = false)
    (h2 : isIntLexeme lexeme = true → ∀ c ∈ rest.head?, isDigit c = false)
    (h3 : lexeme = "=" ∨ lexeme = "!" → rest.head? ≠ some '=') :
    Lexer.NextToken (ws.data ++ (lexeme.data ++ rest)) = (lexemeToken lexeme, rest) := by
  have hskip : skipWhitespace (ws.data ++ (lexeme.data ++ rest)) =
      skipWhitespace (lexeme.data ++ rest) :=
    skipWhitespace_run _ _ (by simpa [isWhitespaceRun] using hws)
  rw [nextToken_congr _ _ hskip]
  simp only [isLexeme, Bool.or_eq_true] at hlex
  rcases hlex with (hl | hd) | hs
  · obtain ⟨⟨c, cs, hc, _⟩, hall⟩ := isLetterRun_spec lexeme hl
    have hi : lexeme = String.mk (c :: cs) := String.ext hc
    rw [hc] at hall
    rw [hc, nextToken_letters c cs rest hall (h1 hl), ← hi]
    simp [lexemeToken, hl]
  · obtain ⟨⟨c, cs, hc, _⟩, hall⟩ := isIntLexeme_spec lexeme hd
    have hi : lexeme = String.mk (c :: cs) := String.ext hc
    have hnl : isLetterRun lexeme = false := by
      cases hl : isLetterRun lexeme with
      | false => rfl
      | true => rw [letterRun_not_intLexeme lexeme hl] at hd; exact Bool.noConfusion hd
    rw [hc] at hall
    rw [hc, nextToken_digits c cs rest hall (h2 hd), ← hi]
    simp [lexemeToken, hd, hnl]
  · obtain ⟨hnl, hnd⟩ := symbol_not_letterRun lexeme hs
    rw [nextToken_symbol lexeme rest hs h3]
    simp [lexemeToken, hnl, hnd]

theorem isWhitespace_spec (c : Char) (h : isWhitespace c = true) :
    isLetter c = false ∧ isDigit c = false ∧ c ≠ '=' := by
  simp only [isWhitespace, Bool.or_eq_true, beq_iff_eq] at h
  rcases h with ((rfl | rfl) | rfl) | rfl <;> decide

theorem lexeme_nonempty (y : String) (h : isLexeme y = true) : ∃ c cs, y.data = c :: cs := by
  simp only [isLexeme, Bool.or_eq_true] at h
  rcases h with (hl | hd) | hs
  · obtain ⟨⟨c, cs, hc, _⟩, _⟩ := isLetterRun_spec y hl
    exact ⟨c, cs, hc⟩
  · obtain ⟨⟨c, cs, hc, _⟩, _⟩ := isIntLexeme_spec y hd
    exact ⟨c, cs, hc⟩
  · rcases isSymbolLexeme_spec y hs with
      rfl | rfl | rfl | rfl | rfl | rfl | rfl | rfl | rfl | rfl | rfl | rfl | rfl | rfl <;>
    exact ⟨_, _, rfl⟩

theorem lexeme_head_letter (y : String) (c : Char) (cs : List Char) (h : isLexeme y = true)
    (hy : y.data = c :: cs) (hc : isLetter c = true) : isLetterRun y = true := by
  simp only [isLexeme, Bool.or_eq_true] at h
  rcases h with (hl | hd) | hs
  · exact hl
  · have := (isIntLexeme_spec y hd).2 c (by simp [hy])
    rw [isLetter_not_isDigit c hc] at this
    exact Bool.noConfusion this
  · rcases isSymbolLexeme_spec y hs with
      rfl | rfl | rfl | rfl | rfl | rfl | rfl | rfl | rfl | rfl | rfl | rfl | rfl | rfl <;>
    · simp only [List.cons.injEq] at hy
      obtain ⟨rfl, _⟩ := hy
      exact absurd hc (by decide)

theorem lexeme_head_digit (y : String) (c : Char) (cs : List Char) (h : isLexeme y = true)
    (hy : y.data = c :: cs) (hc : isDigit c = true) : isIntLexeme y = true := by
  simp only [isLexeme, Bool.or_eq_true] at h
  rcases h with (hl | hd) | hs
  · have := (isLetterRun_spec y hl).2 c (by simp [hy])
    rw [isLetter_not_isDigit c this] at hc
    exact Bool.noConfusion hc
  · exact hd
  · rcases isSymbolLexeme_spec y hs with
      rfl | rfl | rfl | rfl | rfl | rfl | rfl | rfl | rfl | rfl | rfl | rfl | rfl | rfl <;>
    · simp only [List.cons.injEq] at hy
      obtain ⟨rfl, _⟩ := hy
      exact absurd hc (by decide)

theorem lexeme_head_assign (y : String) (cs : List Char) (h : isLexeme y = true)
    (hy : y.data = '=' :: cs) : y = "=" := by
  simp only [isLexeme, Bool.or_eq_true] at h
  rcases h with (hl | hd) | hs
  · have := (isLetterRun_spec y hl).2 '=' (by simp [hy])
    exact absurd this (by decide)
  · have := (isIntLexeme_spec y hd).2 '=' (by simp [hy])
    exact absurd this (by decide)
  · rcases isSymbolLexeme_spec y hs with
      rfl | rfl | rfl | rfl | rfl | rfl | rfl | rfl | rfl | rfl | rfl | rfl | rfl | rfl <;>
    first
    | rfl
    | (simp only [List.cons.injEq] at hy
       exact absurd hy.1 (by decide))

theorem lexemeSource_cons_data (ws y : String) (rest : List (String × String))
    (trail : String) :
    (lexemeSource ((ws, y) :: rest) trail).data =
      ws.data ++ (y.data ++ (lexemeSource rest trail).data) := by
  simp [lexemeSource]

/-- The first character of a lexeme source is a whitespace character or the
first character of a first lexeme that no whitespace precedes. -/
theorem lexemeSource_head (items : List (String × String)) (trail : String)
    (hv : ∀ it ∈ items, isWhitespaceRun it.1 = true ∧ isLexeme it.2 = true)
    (ht : isWhitespaceRun trail = true) (c : Char)
    (hc : (lexemeSource items trail).data.head? = some c) :
    isWhitespace c = true ∨
      ∃ ws y rest cs, items = (ws, y) :: rest ∧ ws.data = [] ∧ y.data = c :: cs := by
  cases items with
  | nil =>
    left
    simp only [lexemeSource] at hc
    simp only [isWhitespaceRun, List.all_eq_true] at ht
    exact ht c (List.mem_of_mem_head? hc)
  | cons it rest =>
    obtain ⟨ws, y⟩ := it
    obtain ⟨hws, hy⟩ := hv (ws, y) (by simp)
    rw [lexemeSource_cons_data] at hc
    cases hw : ws.data with
    | nil =>
      right
      obtain ⟨d, ds, hd⟩ := lexeme_nonempty y hy
      rw [hw, hd] at hc
      simp only [List.nil_append, List.cons_append, List.head?_cons, Option.some.injEq] at hc
      exact ⟨ws, y, rest, ds, rfl, hw, by rw [hd, hc]⟩
    | cons d ds =>
      left
      rw [hw] at hc
      simp only [List.cons_append, List.head?_cons, Option.some.injEq] at hc
      simp only [isWhitespaceRun, List.all_eq_true] at hws
      exact hws c (by rw [hw, hc]; simp)

theorem separated_head (ws0 x ws y : String) (rest : List (String × String))
    (h : separated ((ws0, x) :: (ws, y) :: rest) = true) (hw : ws.data = []) :
    merges x y = false ∧ separated ((ws, y) :: rest) = true := by
  simp only [separated, Bool.and_eq_true, Bool.or_eq_true, Bool.not_eq_true', hw,
    List.isEmpty_nil] at h
  refine ⟨?_, h.2⟩
  rcases h.1 with h1 | h1
  · exact Bool.noConfusion h1
  · exact h1

theorem separated_tail (it : String × String) (rest : List (String × String))
    (h : separated (it :: rest) = true) : separated rest = true := by
  cases rest with
  | nil => rfl
  | cons it2 rest2 =>
    obtain ⟨ws0, x⟩ := it
    obtain ⟨ws, y⟩ := it2
    simp only [separated, Bool.and_eq_true] at h
    exact h.2

/-- After a lexeme of a separated source, the rest of the source does not
extend the lexeme. -/
theorem lexemeSource_follow (ws0 x : String) (tail : List (String × String))
    (trail : String)
    (hv : ∀ it ∈ tail, isWhitespaceRun it.1 = true ∧ isLexeme it.2 = true)
    (ht : isWhitespaceRun trail = true)
    (hsep : separated ((ws0, x) :: tail) = true) :
    (isLetterRun x = true → ∀ c ∈ (lexemeSource tail trail).data.head?, isLetter c = false) ∧
    (isIntLexeme x = true → ∀ c ∈ (lexemeSource tail trail).data.head?, isDigit c = false) ∧
    (x = "=" ∨ x = "!" → (lexemeSource tail trail).data.head? ≠ some '=') := by
  have key : ∀ c, (lexemeSource tail trail).data.head? = some c →
      isWhitespace c = true ∨ ∃ y cs, isLexeme y = true ∧ y.data = c :: cs ∧
        merges x y = false := by
    intro c hc
    rcases lexemeSource_head tail trail hv ht c hc with h | ⟨ws, y, rest, cs, rfl, hw, hy⟩
    · exact Or.inl h
    · exact Or.inr ⟨y, cs, (hv (ws, y) (by simp)).2, hy, (separated_head _ _ _ _ _ hsep hw).1⟩
  refine ⟨?_, ?_, ?_⟩
  · intro hx c hc
    rcases key c hc with h | ⟨y, cs, hy, hd, hm⟩
    · exact (isWhitespace_spec c h).1
    · cases hl : isLetter c with
      | false => rfl
      | true =>
        have := lexeme_head_letter y c cs hy hd hl
        simp [merges, hx, this] at hm
  · intro hx c hc
    rcases key c hc with h | ⟨y, cs, hy, hd, hm⟩
    · exact (isWhitespace_spec c h).2.1
    · cases hl : isDigit c with
      | false => rfl
      | true =>
        have := lexeme_head_digit y c cs hy hd hl
        simp [merges, hx, this] at hm
  · intro hx hc
    rcases key '=' hc with h | ⟨y, cs, hy, hd, hm⟩
    · exact absurd h (by decide)
    · have := lexeme_head_assign y cs hy hd
      simp [merges, hx, this] at hm

theorem nextTokens_succ (n : Nat) (l : Lexer) :
    nextTokens (n + 1) l =
      (Lexer.NextToken l).1 :: nextTokens n (Lexer.NextToken l).2 := rfl

theorem nextTokens_lexemeSource (items : List (String × String)) :
    ∀ trail : String,
      (∀ it ∈ items, isWhitespaceRun it.1 = true ∧ isLexeme it.2 = true) →
      isWhitespaceRun trail = true → separated items = true →
      nextTokens (items.length + 1) (lexemeSource items trail).data =
        items.map (fun it => lexemeToken it.2) ++ [eofToken] := by
  induction items with
  | nil =>
    intro trail _ ht _
    have hskip : skipWhitespace (trail.data ++ []) = skipWhitespace [] :=
      skipWhitespace_run _ _ (by simpa [isWhitespaceRun] using ht)
    simp only [List.append_nil] at hskip
    have : Gen trail.data [] := hskip
    simp [nextTokens, lexemeSource, nextToken_of_gen_nil _ this]
  | cons it tail ih =>
    intro trail hv ht hsep
    obtain ⟨ws, x⟩ := it
    obtain ⟨hws, hx⟩ := hv (ws, x) (by simp)
    have hvt : ∀ it ∈ tail, isWhitespaceRun it.1 = true ∧ isLexeme it.2 = true :=
      fun it hit => hv it (by simp [hit])
    obtain ⟨h1, h2, h3⟩ := lexemeSource_follow ws x tail trail hvt ht hsep
    have hnext := nextToken_lexeme ws x _ hws hx h1 h2 h3
    have hrec := ih trail hvt ht (separated_tail _ _ hsep)
    rw [List.length_cons, nextTokens_succ, lexemeSource_cons_data, hnext, hrec]
    rfl

/-- C11 as stated fails: the source `==` is made of the two symbols `=` and
`=` with no whitespace between them, and the first `NextToken` call returns
the single token `EQ` with literal `==`, not an `ASSIGN`. -/
theorem nextTokens_adjacent_assign :
    isLexeme "=" = true ∧
    nextTokens 2 (Lexer.New (lexemeSource [("", "="), ("", "=")] "")) =
      [⟨EQ, "=="⟩, ⟨EOF, ""⟩] ∧
    nextTokens 2 (Lexer.New (lexemeSource [("", "="), ("", "=")] "")) ≠
      [("", "="), ("", "=")].map (fun it => lexemeToken it.2) := by
  decide

/-- C11 (amended): for every source made of identifier runs, digit runs and
single-character symbols with optional whitespace around them, in which
whitespace separates two adjacent identifier runs, two adjacent digit runs,
and `=` from a preceding `=` or `!`, successive `NextToken` calls return one
token per lexeme, in order, with the lexeme as literal and as kind
`LookupIdent(lexeme)` for an identifier run, `INT` for a digit run and the
symbol's own kind for a symbol; the next call returns end of input. -/
theorem nextTokens_one_per_lexeme (items : List (String × String)) (trail : String)
    (hv : ∀ it ∈ items, isWhitespaceRun it.1 = true ∧ isLexeme it.2 = true)
    (ht : isWhitespaceRun trail = true) (hsep : separated items = true) :
    nextTokens items.length (Lexer.New (lexemeSource items trail)) =
      items.map (fun it => lexemeToken it.2) ∧
    nextTokens (items.length + 1) (Lexer.New (lexemeSource items trail)) =
      items.map (fun it => lexemeToken it.2) ++ [⟨EOF, ""⟩] := by
  have h : nextTokens (items.length + 1) (Lexer.New (lexemeSource items trail)) =
      items.map (fun it => lexemeToken it.2) ++ [⟨EOF, ""⟩] :=
    nextTokens_lexemeSource items trail hv ht hsep
  refine ⟨?_, h⟩
  have hlen : ∀ (n : Nat) (l : Lexer), nextTokens n l = (nextTokens (n + 1) l).take n := by
    intro n
    induction n with
    | zero => intro l; rfl
    | succ n ih =>
      intro l
      rw [nextTokens_succ, nextTokens_succ (n + 1), List.take_succ_cons, ← ih]
  rw [hlen, h]
  simp

theorem nextTokens_one_per_lexeme_witness :
    nextTokens 6 (Lexer.New (lexemeSource
        [("", "let"), (" ", "x"), ("", "="), (" ", "="), ("\t", "10"), ("", ";")] "\n")) =
      [⟨LET, "let"⟩, ⟨IDENT, "x"⟩, ⟨ASSIGN, "="⟩, ⟨ASSIGN, "="⟩, ⟨INT, "10"⟩,
        ⟨SEMICOLON, ";"⟩] :=
  (nextTokens_one_per_lexeme
    [("", "let"), (" ", "x"), ("", "="), (" ", "="), ("\t", "10"), ("", ";")] "\n"
    (by decide) (by decide) (by decide)).1.trans (by decide)

/-! ## Termination of the parser on every input -/

theorem lookupIdent_ne_eof (s : String) : LookupIdent s ≠ EOF := by
  rcases lookupIdent_cases s with
    ⟨_, k⟩ | ⟨_, k⟩ | ⟨_, k⟩ | ⟨_, k⟩ | ⟨_, k⟩ | ⟨_, k⟩ | ⟨_, k⟩ | k <;>
  · rw [k]; decide

theorem symbolKind_ne_eof (c : Char) (k : TokenType) (h : symbolKind c = some k) :
    k ≠ EOF := by
  unfold symbolKind at h
  by_cases h0 : c = '='
  · rw [if_pos h0] at h
    injection h with h
    rw [← h]
    decide
  rw [if_neg h0] at h
  by_cases h1 : c = '+'
  · rw [if_pos h1] at h
    injection h with h
    rw [← h]
    decide
  rw [if_neg h1] at h
  by_cases h2 : c = '-'
  · rw [if_pos h2] at h
    injection h with h
    rw [← h]
    decide
  rw [if_neg h2] at h
  by_cases h3 : c = '!'
  · rw [if_pos h3] at h
    injection h with h
    rw [← h]
    decide
  rw [if_neg h3] at h
  by_cases h4 : c = '*'
  · rw [if_pos h4] at h
    injection h with h
    rw [← h]
    decide
  rw [if_neg h4] at h
  by_cases h5 : c = '/'
  · rw [if_pos h5] at h
    injection h with h
    rw [← h]
    decide
  rw [if_neg h5] at h
  by_cases h6 : c = '<'
  · rw [if_pos h6] at h
    injection h with h
    rw [← h]
    decide
  rw [if_neg h6] at h
  by_cases h7 : c = '>'
  · rw [if_pos h7] at h
    injection h with h
    rw [← h]
    decide
  rw [if_neg h7] at h
  by_cases h8 : c = ','
  · rw [if_pos h8] at h
    injection h with h
    rw [← h]
    decide
  rw [if_neg h8] at h
  by_cases h9 : c = ';'
  · rw [if_pos h9] at h
    injection h with h
    rw [← h]
    decide
  rw [if_neg h9] at h
  by_cases h10 : c = '('
  · rw [if_pos h10] at h
    injection h with h
    rw [← h]
    decide
  rw [if_neg h10] at h
  by_cases h11 : c = ')'
  · rw [if_pos h11] at h
    injection h with h
    rw [← h]
    decide
  rw [if_neg h11] at h
  by_cases h12 : c = '\x7b'
  · rw [if_pos h12] at h
    injection h with h
    rw [← h]
    decide
  rw [if_neg h12] at h
  by_cases h13 : c = '\x7d'
  · rw [if_pos h13] at h
    injection h with h
    rw [← h]
    decide
  rw [if_neg h13] at h
  exact Option.noConfusion h

/-- Only at the end of the input does the lexer return the end-of-input
token. -/
theorem nextToken_eof (l : Lexer) (h : (Lexer.NextToken l).1.Typ = EOF) :
    skipWhitespace l = [] := by
  cases hs : skipWhitespace l with
  | nil => rfl
  | cons c cs =>
    exfalso
    simp only [Lexer.NextToken, hs] at h
    split_ifs at h
    · exact lookupIdent_ne_eof _ h
    · exact absurd h (by show INT ≠ EOF; decide)
    · exact absurd h (by show EQ ≠ EOF; decide)
    · exact absurd h (by show NOT_EQ ≠ EOF; decide)
    · split at h
      · rename_i kind hk
        exact symbolKind_ne_eof c kind hk h
      · exact absurd h (by show ILLEGAL ≠ EOF; decide)

theorem nextToken_weight (l : Lexer) :
    (Lexer.NextToken l).2.length + tokenWeight (Lexer.NextToken l).1 ≤ l.length := by
  cases hs : skipWhitespace l with
  | nil =>
    rw [nextToken_of_gen_nil l hs]
    simp [tokenWeight, eofToken]
  | cons c cs =>
    have h1 := nextToken_length_le l c cs hs
    have h2 := skipWhitespace_length_le l
    rw [hs] at h2
    simp only [List.length_cons] at h2
    have h3 : tokenWeight (Lexer.NextToken l).1 ≤ 1 := by
      simp only [tokenWeight]
      split_ifs <;> omega
    omega

theorem weight_nextToken (p : Parser) :
    p.nextToken.weight + tokenWeight p.curToken ≤ p.weight := by
  have := nextToken_weight p.l
  simp only [Parser.weight, Parser.nextToken]
  omega

theorem settled_nextToken (p : Parser) (h : p.Settled) : p.nextToken.Settled := by
  obtain ⟨h1, h2⟩ := h
  constructor
  · intro hc
    have hl : p.l = [] := h2 hc
    simp [Parser.nextToken, hl, Lexer.NextToken, skipWhitespace]
  · intro hp
    have hs : skipWhitespace p.l = [] := nextToken_eof p.l hp
    simp [Parser.nextToken, nextToken_of_gen_nil p.l hs]

theorem progress_refl (p : Parser) (h : p.Settled) : Progress p p :=
  ⟨h, Nat.le_refl _, List.prefix_refl _⟩

theorem progress_trans (p q r : Parser) (h1 : Progress p q) (h2 : Progress q r) :
    Progress p r :=
  ⟨h2.1, Nat.le_trans h2.2.1 h1.2.1, List.IsPrefix.trans h1.2.2 h2.2.2⟩

theorem progress_nextToken (p : Parser) (h : p.Settled) : Progress p p.nextToken :=
  ⟨settled_nextToken p h, by have := weight_nextToken p; omega, List.prefix_refl _⟩

theorem progress_peekError (p : Parser) (t : TokenType) (h : p.Settled) :
    Progress p (p.peekError t) :=
  ⟨h, Nat.le_refl _, List.prefix_append _ _⟩

theorem progress_noPrefixParseFnError (p : Parser) (t : TokenType) (h : p.Settled) :
    Progress p (p.noPrefixParseFnError t) :=
  ⟨h, Nat.le_refl _, List.prefix_append _ _⟩

theorem tokenWeight_of_ne_eof (t : Token) (h : t.Typ ≠ EOF) : tokenWeight t = 1 := by
  simp [tokenWeight, h]

theorem settled_new (l : Lexer) : (Parser.New l).Settled ∧ (Parser.New l).weight ≤
    (Parser.New l).l.length + 2 := by
  constructor
  · refine settled_nextToken _ (settled_nextToken _ ⟨?_, ?_⟩)
    · intro h; exact absurd h (by show ("" : String) ≠ EOF; decide)
    · intro h; exact absurd h (by show ("" : String) ≠ EOF; decide)
  · have h1 : ∀ t : Token, tokenWeight t ≤ 1 := by
      intro t
      simp only [tokenWeight]
      split_ifs <;> omega
    have := h1 (Parser.New l).peekToken
    have := h1 (Parser.New l).curToken
    simp only [Parser.weight]
    omega

theorem infixParseFns_some (t : TokenType)
    (fn : ExprParser → Expression → Parser → ExprResult) (h : infixParseFns t = some fn) :
    fn = parseInfixExpression ∧ t ≠ EOF := by
  unfold infixParseFns at h
  split_ifs at h with hc
  · injection h with h
    refine ⟨h.symm, ?_⟩
    rintro rfl
    revert hc
    decide

theorem weight_nextToken_of_ne_eof (p : Parser) (h : p.curToken.Typ ≠ EOF) :
    p.nextToken.weight + 1 ≤ p.weight := by
  have := weight_nextToken p
  rw [tokenWeight_of_ne_eof _ h] at this
  exact this

/-- Every registered prefix operation returns, given that `parseExpression`
does at the fuel it is handed. -/
theorem prefixFn_total (f : Nat) (hT : ExpressionTotal f) (p : Parser)
    (pf : ExprParser → Parser → ExprResult)
    (hpf : prefixParseFns p.curToken.Typ = some pf) (hs : p.Settled) (hw : p.weight ≤ f) :
    p.curToken.Typ ≠ EOF ∧
      ∃ left q, pf (parseExpression f) p = some (left, q) ∧ Progress p q := by
  have hne : p.curToken.Typ ≠ EOF := by
    intro h
    rw [h] at hpf
    have hnone : prefixParseFns EOF = none := rfl
    rw [hnone] at hpf
    exact Option.noConfusion hpf
  refine ⟨hne, ?_⟩
  have hnext := weight_nextToken_of_ne_eof p hne
  unfold prefixParseFns at hpf
  split_ifs at hpf
  · injection hpf with hpf
    subst hpf
    exact ⟨_, p, rfl, progress_refl p hs⟩
  · injection hpf with hpf
    subst hpf
    exact ⟨_, p, rfl, progress_refl p hs⟩
  · injection hpf with hpf
    subst hpf
    exact ⟨_, p, rfl, progress_refl p hs⟩
  · injection hpf with hpf
    subst hpf
    obtain ⟨right, q, hq, hprog⟩ := hT p.nextToken PREFIX (settled_nextToken p hs) (by omega)
    refine ⟨Expression.PrefixExpression p.curToken p.curToken.Literal right, q, ?_,
      progress_trans _ _ _ (progress_nextToken p hs) hprog⟩
    simp only [parsePrefixExpression, hq]
  · injection hpf with hpf
    subst hpf
    obtain ⟨exp, q, hq, hprog⟩ := hT p.nextToken LOWEST (settled_nextToken p hs) (by omega)
    have hpq := progress_trans _ _ _ (progress_nextToken p hs) hprog
    by_cases hpeek : q.peekToken.Typ = RPAREN
    · refine ⟨exp, q.nextToken, ?_, progress_trans _ _ _ hpq (progress_nextToken q hprog.1)⟩
      simp [parseGroupedExpression, hq, Parser.expectPeek, hpeek]
    · refine ⟨Expression.nil, q.peekError RPAREN, ?_,
        progress_trans _ _ _ hpq (progress_peekError q RPAREN hprog.1)⟩
      simp [parseGroupedExpression, hq, Parser.expectPeek, hpeek]

/-- The infix loop returns: every iteration that goes on consumes the operator
and the token before it. -/
theorem infixLoop_total (f : Nat) (hT : ExpressionTotal f) (prec : Nat) :
    ∀ (n : Nat) (left : Expression) (p : Parser), n ≤ f → p.Settled → p.weight ≤ n → 1 ≤ n →
      ∃ e q, infixLoop (parseExpression f) prec n left p = some (e, q) ∧ Progress p q := by
  intro n
  induction n with
  | zero =>
    intro left p _ _ _ h1
    omega
  | succ m ih =>
    intro left p hle hs hw _
    simp only [infixLoop]
    split_ifs with hcond
    · cases hfn : infixParseFns p.nextToken.curToken.Typ with
      | none => exact ⟨left, p.nextToken, rfl, progress_nextToken p hs⟩
      | some fn =>
        obtain ⟨rfl, hop⟩ := infixParseFns_some _ fn hfn
        rw [nextToken_curToken] at hop
        have hcur : p.curToken.Typ ≠ EOF := fun h => hop (hs.1 h)
        have hw1 := weight_nextToken_of_ne_eof p hcur
        have hw2 := weight_nextToken_of_ne_eof p.nextToken hop
        have hs2 := settled_nextToken _ (settled_nextToken p hs)
        obtain ⟨right, q, hq, hprog⟩ := hT p.nextToken.nextToken p.nextToken.curPrecedence hs2
          (by omega)
        obtain ⟨e, r, hr, hprog2⟩ := ih
          (Expression.InfixExpression p.nextToken.curToken left p.nextToken.curToken.Literal
            right) q (by omega) hprog.1 (by have := hprog.2.1; omega) (by omega)
        refine ⟨e, r, ?_, ?_⟩
        · simp only [parseInfixExpression, hq, hr]
        · exact progress_trans _ _ _ (progress_trans _ _ _ (progress_trans _ _ _
            (progress_nextToken p hs) (progress_nextToken _ (settled_nextToken p hs))) hprog)
            hprog2
    · exact ⟨left, p, rfl, progress_refl p hs⟩

theorem expression_total : ∀ f : Nat, ExpressionTotal f := by
  intro f
  induction f with
  | zero =>
    intro p prec _ hw
    omega
  | succ f ih =>
    intro p prec hs hw
    simp only [parseExpression]
    cases hpf : prefixParseFns p.curToken.Typ with
    | none => exact ⟨_, _, rfl, progress_noPrefixParseFnError p _ hs⟩
    | some pf =>
      obtain ⟨hne, left, q, hq, hprog⟩ := prefixFn_total f ih p pf hpf hs (by omega)
      have hpos : 1 ≤ p.weight := by
        have := tokenWeight_of_ne_eof _ hne
        simp only [Parser.weight]
        omega
      obtain ⟨e, r, hr, hprog2⟩ := infixLoop_total f ih prec f left q (Nat.le_refl _) hprog.1
        (by have := hprog.2.1; omega) (by omega)
      exact ⟨e, r, by simp only [hq, hr], progress_trans _ _ _ hprog hprog2⟩

theorem progress_skipSemicolon (p : Parser) (h : p.Settled) : Progress p p.skipSemicolon := by
  simp only [Parser.skipSemicolon]
  split_ifs
  · exact progress_nextToken p h
  · exact progress_refl p h

/-- Every statement parse returns, having made progress. -/
theorem parseStatement_total (fuel : Nat) (p : Parser) (hs : p.Settled)
    (hw : p.weight + 1 ≤ fuel) :
    ∃ stmt q, parseStatement fuel p = some (stmt, q) ∧ Progress p q := by
  have hT := expression_total fuel
  by_cases hlet : p.curToken.Typ = LET
  · -- let
    by_cases hident : p.peekToken.Typ = IDENT
    · by_cases hassign : p.nextToken.peekToken.Typ = ASSIGN
      · have hp1 := progress_nextToken p hs
        have hp2 := progress_trans _ _ _ hp1 (progress_nextToken _ hp1.1)
        have hp3 := progress_trans _ _ _ hp2 (progress_nextToken _ hp2.1)
        obtain ⟨value, q, hq, hprog⟩ := hT p.nextToken.nextToken.nextToken LOWEST hp3.1
          (by have := hp3.2.1; omega)
        refine ⟨Statement.LetStatement p.curToken
          ⟨p.nextToken.curToken, p.nextToken.curToken.Literal⟩ value, q.skipSemicolon, ?_, ?_⟩
        · simp only [parseStatement, if_pos hlet, parseLetStatement, Parser.expectPeek,
            if_pos hident, if_pos hassign, hq]
        · exact progress_trans _ _ _ (progress_trans _ _ _ hp3 hprog)
            (progress_skipSemicolon q hprog.1)
      · have hp1 := progress_nextToken p hs
        refine ⟨Statement.nil, p.nextToken.peekError ASSIGN, ?_,
          progress_trans _ _ _ hp1 (progress_peekError _ ASSIGN hp1.1)⟩
        simp only [parseStatement, if_pos hlet, parseLetStatement, Parser.expectPeek,
          if_pos hident, if_neg hassign]
    · refine ⟨Statement.nil, p.peekError IDENT, ?_, progress_peekError p IDENT hs⟩
      simp only [parseStatement, if_pos hlet, parseLetStatement, Parser.expectPeek,
        if_neg hident]
  · by_cases hret : p.curToken.Typ = RETURN
    · -- return
      have hp1 := progress_nextToken p hs
      obtain ⟨value, q, hq, hprog⟩ := hT p.nextToken LOWEST hp1.1 (by have := hp1.2.1; omega)
      refine ⟨Statement.ReturnStatement p.curToken value, q.skipSemicolon, ?_, ?_⟩
      · simp only [parseStatement, if_neg hlet, if_pos hret, parseReturnStatement, hq]
      · exact progress_trans _ _ _ (progress_trans _ _ _ hp1 hprog)
          (progress_skipSemicolon q hprog.1)
    · -- expression statement
      obtain ⟨e, q, hq, hprog⟩ := hT p LOWEST hs hw
      refine ⟨Statement.ExpressionStatement p.curToken e, q.skipSemicolon, ?_, ?_⟩
      · simp only [parseStatement, if_neg hlet, if_neg hret, parseExpressionStatement, hq]
      · exact progress_trans _ _ _ hprog (progress_skipSemicolon q hprog.1)

/-- The advance after a statement strictly lowers the weight. -/
theorem weight_after_statement (p q : Parser) (hcur : p.curToken.Typ ≠ EOF)
    (hprog : Progress p q) : q.nextToken.weight + 1 ≤ p.weight := by
  have hpos : 1 ≤ p.weight := by
    have := tokenWeight_of_ne_eof _ hcur
    simp only [Parser.weight]
    omega
  have hstep := weight_nextToken q
  have hle := hprog.2.1
  by_cases hq : q.curToken.Typ = EOF
  · have hpeek := hprog.1.1 hq
    have hl := hprog.1.2 hpeek
    have hzero : q.weight = 0 := by
      simp [Parser.weight, tokenWeight, hq, hpeek, hl]
    omega
  · rw [tokenWeight_of_ne_eof _ hq] at hstep
    omega

/-- The statement loop returns on every settled state within its bounds, and
only appends to the error list. -/
theorem parseProgramLoop_total :
    ∀ (n fuel : Nat) (p : Parser) (acc : List Statement), p.Settled → p.weight + 1 ≤ n →
      p.weight + 1 ≤ fuel →
      ∃ stmts q, parseProgramLoop n fuel p acc = some (stmts, q) ∧ p.errors <+: q.errors := by
  intro n
  induction n with
  | zero =>
    intro fuel p acc _ hn
    omega
  | succ m ih =>
    intro fuel p acc hs hn hf
    simp only [parseProgramLoop]
    split_ifs with hcur
    · exact ⟨acc, p, rfl, List.prefix_refl _⟩
    · obtain ⟨stmt, q, hq, hprog⟩ := parseStatement_total fuel p hs hf
      have hw := weight_after_statement p q hcur hprog
      obtain ⟨stmts, r, hr, hpre⟩ := ih fuel q.nextToken
        (if stmt ≠ Statement.nil then acc ++ [stmt] else acc)
        (settled_nextToken q hprog.1) (by omega) (by omega)
      refine ⟨stmts, r, by simp only [hq, hr], ?_⟩
      exact List.IsPrefix.trans hprog.2.2 hpre

/-- Lexing and parsing return a program and an error list on every source
text: the fuel of `ParseProgram` is never exhausted. -/
theorem parseSource_total (input : String) :
    ∃ program errors, parseSource input = some (program, errors) := by
  obtain ⟨hs, hw⟩ := settled_new (Lexer.New input)
  obtain ⟨stmts, q, hq, _⟩ := parseProgramLoop_total
    ((Parser.New (Lexer.New input)).l.length + 3) ((Parser.New (Lexer.New input)).l.length + 3)
    (Parser.New (Lexer.New input)) [] hs (by omega) (by omega)
  exact ⟨⟨stmts⟩, q.errors, by simp only [parseSource, Parser.ParseProgram, hq, Parser.Errors]⟩

/-! ## A missing `=` in a let statement -/

/-- C13: for every input whose first three tokens are `let`, an identifier and
a token that is not `=` (the end of input included), `ParseProgram` returns and
the error list is not empty: its first entry is the recorded mismatch
"expected next token to be =, got ...". -/
theorem missing_assign_is_recorded (input : String) (kind : TokenType)
    (hform : (nextTokens 3 (Lexer.New input)).map Token.Typ = [LET, IDENT, kind])
    (hkind : kind ≠ ASSIGN) :
    ∃ program errors, parseSource input = some (program, errors) ∧
      errors.head? = some ("expected next token to be " ++ ASSIGN ++ ", got " ++ kind) ∧
      1 ≤ errors.length := by
  simp only [nextTokens, List.map_cons, List.map_nil, List.cons.injEq, and_true] at hform
  obtain ⟨h1, h2, h3⟩ := hform
  have hcur : (Parser.New (Lexer.New input)).curToken.Typ = LET := h1
  have hpeek : (Parser.New (Lexer.New input)).peekToken.Typ = IDENT := h2
  have hthird : (Parser.New (Lexer.New input)).nextToken.peekToken.Typ = kind := h3
  have herr0 : (Parser.New (Lexer.New input)).errors = [] := rfl
  obtain ⟨hs, hw⟩ := settled_new (Lexer.New input)
  have hne : (Parser.New (Lexer.New input)).curToken.Typ ≠ EOF := by
    rw [hcur]
    decide
  have hassign : ¬ (Parser.New (Lexer.New input)).nextToken.peekToken.Typ = ASSIGN := by
    rw [hthird]
    exact hkind
  have hp1 := progress_nextToken _ hs
  have hprog : Progress (Parser.New (Lexer.New input))
      ((Parser.New (Lexer.New input)).nextToken.peekError ASSIGN) :=
    progress_trans _ _ _ hp1 (progress_peekError _ ASSIGN hp1.1)
  have hstmt : parseStatement ((Parser.New (Lexer.New input)).l.length + 3)
      (Parser.New (Lexer.New input)) =
      some (Statement.nil, (Parser.New (Lexer.New input)).nextToken.peekError ASSIGN) := by
    simp only [parseStatement, if_pos hcur, parseLetStatement, Parser.expectPeek,
      if_pos hpeek, if_neg hassign]
  have hweight := weight_after_statement _ _ hne hprog
  obtain ⟨stmts, q, hq, hpre⟩ := parseProgramLoop_total
    ((Parser.New (Lexer.New input)).l.length + 2) ((Parser.New (Lexer.New input)).l.length + 3)
    ((Parser.New (Lexer.New input)).nextToken.peekError ASSIGN).nextToken []
    (settled_nextToken _ hprog.1) (by omega) (by omega)
  have hloop : parseProgramLoop ((Parser.New (Lexer.New input)).l.length + 3)
      ((Parser.New (Lexer.New input)).l.length + 3) (Parser.New (Lexer.New input)) [] =
      some (stmts, q) := by
    rw [← hq]
    simp only [parseProgramLoop, if_neg hne, hstmt]
    rfl
  have herrs : ["expected next token to be " ++ ASSIGN ++ ", got " ++ kind] <+: q.errors := by
    have : ((Parser.New (Lexer.New input)).nextToken.peekError ASSIGN).nextToken.errors =
        ["expected next token to be " ++ ASSIGN ++ ", got " ++ kind] := by
      simp only [nextToken_errors, Parser.peekError, herr0, hthird, List.nil_append]
    rw [← this]
    exact hpre
  obtain ⟨more, hmore⟩ := herrs
  refine ⟨⟨stmts⟩, q.errors, ?_, ?_, ?_⟩
  · simp only [parseSource, Parser.ParseProgram, hloop, Parser.Errors]
  · rw [← hmore]
    rfl
  · rw [← hmore]
    simp

theorem missing_assign_is_recorded_witness :
    ∃ program errors, parseSource "let x 5;" = some (program, errors) ∧
      errors.head? = some "expected next token to be =, got INT" ∧ 1 ≤ errors.length :=
  missing_assign_is_recorded "let x 5;" INT (by decide) (by decide)

end GoInterpreter
